import Mathlib

/-!
Verification of the memory-management core of the `big-iron` kernel.

The repository snapshot contains `src/main.rs` (the kernel entry point and
panic handler) and a boot test.  The library modules it calls
(`big_iron::memory`, `big_iron::allocator`, `big_iron::hlt_loop`) are not in
the snapshot, so the frame source, the address-space mapper and the heap
allocator are modelled from the specification, while the control flow of
`kernel_main` is embedded from `src/main.rs`.

All machine addresses and sizes are modelled as `Nat`; address ranges are
half-open `[start, start + size)`.
-/

namespace BigIron

/-- Page size in bytes: frames and virtual pages are 4096-byte units. -/
def PAGE_SIZE : Nat := 4096

/-- Round `a` up to the next multiple of `align` (for `align > 0`).
For power-of-two alignments this is the usual `(a + align - 1) & !(align - 1)`
bit trick, written arithmetically. -/
def alignUp (a align : Nat) : Nat := ((a + align - 1) / align) * align

theorem le_alignUp (a n : Nat) (hn : 0 < n) : a ≤ alignUp a n := by
  unfold alignUp
  rcases Nat.eq_zero_or_pos a with rfl | ha
  · exact Nat.zero_le _
  · have h2 : a + n - 1 = (a - 1) + n := by omega
    rw [h2, Nat.add_div_right _ hn]
    have hlt : a - 1 < ((a - 1) / n + 1) * n := by
      rw [← Nat.div_lt_iff_lt_mul hn]
      exact Nat.lt_succ_self _
    calc a = a - 1 + 1 := by omega
    _ ≤ ((a - 1) / n + 1) * n := Nat.succ_le_of_lt hlt

theorem alignUp_dvd (a n : Nat) : n ∣ alignUp a n :=
  ⟨(a + n - 1) / n, (Nat.mul_comm _ _)⟩

theorem alignUp_eq_self (a n : Nat) (hn : 0 < n) (h : n ∣ a) : alignUp a n = a := by
  obtain ⟨k, rfl⟩ := h
  unfold alignUp
  have h1 : n * k + n - 1 = (n - 1) + k * n := by
    rw [Nat.mul_comm]; omega
  rw [h1, Nat.add_mul_div_right _ _ hn, Nat.div_eq_of_lt (by omega), Nat.zero_add,
    Nat.mul_comm]

/-! ### Frame Source

Modelled from the spec: `big_iron::memory::BootInfoFrameAllocator` (the file
`src/memory.rs` is not in the repository snapshot; only its caller
`BootInfoFrameAllocator::init(&boot_info.memory_map)` at `src/main.rs:26`
is).  The spec (§4.1): `next_frame()` iterates the boot-supplied region list
in a fixed order, skips `Reserved` regions, and within each `Usable` region
yields successive page-aligned frames starting from the first full page
boundary at or after the region start and stopping before the region end;
exhaustion is terminal. -/

/-- A boot-supplied physical memory region `[startAddr, endAddr)`, tagged
usable (`usable = true`) or reserved. -/
structure MemoryRegion where
  startAddr : Nat
  endAddr : Nat
  usable : Bool
deriving DecidableEq

/-- All frames a single region contributes, in ascending order: page-aligned
addresses from the first page boundary at or after `startAddr`, stopping
before `endAddr`; a reserved region contributes none. -/
def regionFrames (r : MemoryRegion) : List Nat :=
  if r.usable then
    (List.range ((r.endAddr - alignUp r.startAddr PAGE_SIZE) / PAGE_SIZE)).map
      (fun k => alignUp r.startAddr PAGE_SIZE + PAGE_SIZE * k)
  else []

/-- The full stream of frames the frame source will ever hand out, region by
region in boot order. -/
def allFrames : List MemoryRegion → List Nat
  | [] => []
  | r :: rest => regionFrames r ++ allFrames rest

/-- Modelled from the spec: one `next_frame()` call.  The state is the list of
regions still to be consumed, with the head region's `startAddr` advanced past
the frames already handed out (the spec's "current region index + next frame
offset" cursor).  Returns `none` on exhaustion. -/
def nextFrame : List MemoryRegion → Option (Nat × List MemoryRegion)
  | [] => none
  | r :: rest =>
    if r.usable ∧ alignUp r.startAddr PAGE_SIZE + PAGE_SIZE ≤ r.endAddr then
      some (alignUp r.startAddr PAGE_SIZE,
        { r with startAddr := alignUp r.startAddr PAGE_SIZE + PAGE_SIZE } :: rest)
    else nextFrame rest

/-- The frames returned by a sequence of `n` `next_frame()` calls. -/
def collect : Nat → List MemoryRegion → List Nat
  | 0, _ => []
  | n + 1, rs =>
    match nextFrame rs with
    | none => []
    | some (f, rs') => f :: collect n rs'

theorem regionFrames_cons (r : MemoryRegion) (hu : r.usable = true)
    (h : alignUp r.startAddr PAGE_SIZE + PAGE_SIZE ≤ r.endAddr) :
    regionFrames r =
      alignUp r.startAddr PAGE_SIZE ::
        regionFrames { r with startAddr := alignUp r.startAddr PAGE_SIZE + PAGE_SIZE } := by
  have hP : 0 < PAGE_SIZE := by norm_num [PAGE_SIZE]
  have halign : alignUp (alignUp r.startAddr PAGE_SIZE + PAGE_SIZE) PAGE_SIZE
      = alignUp r.startAddr PAGE_SIZE + PAGE_SIZE :=
    alignUp_eq_self _ _ hP (Dvd.dvd.add (alignUp_dvd _ _) dvd_rfl)
  have hcount : (r.endAddr - alignUp r.startAddr PAGE_SIZE) / PAGE_SIZE
      = (r.endAddr - (alignUp r.startAddr PAGE_SIZE + PAGE_SIZE)) / PAGE_SIZE + 1 := by
    have h1 : r.endAddr - alignUp r.startAddr PAGE_SIZE
        = (r.endAddr - (alignUp r.startAddr PAGE_SIZE + PAGE_SIZE)) + PAGE_SIZE := by omega
    rw [h1, Nat.add_div_right _ hP]
  have htail : ∀ m : Nat,
      (List.range m).map
          ((fun k => alignUp r.startAddr PAGE_SIZE + PAGE_SIZE * k) ∘ Nat.succ)
        = (List.range m).map
            (fun k => alignUp r.startAddr PAGE_SIZE + PAGE_SIZE + PAGE_SIZE * k) := by
    intro m
    apply List.map_congr_left
    intro k _
    simp only [Function.comp_apply, Nat.mul_succ]
    omega
  simp only [regionFrames, hu, if_true, halign, hcount, List.range_succ_eq_map,
    List.map_cons, List.map_map, Nat.mul_zero, Nat.add_zero, htail]

theorem regionFrames_nil (r : MemoryRegion)
    (h : ¬ (r.usable ∧ alignUp r.startAddr PAGE_SIZE + PAGE_SIZE ≤ r.endAddr)) :
    regionFrames r = [] := by
  unfold regionFrames
  have hP : 0 < PAGE_SIZE := by norm_num [PAGE_SIZE]
  by_cases hu : r.usable
  · simp only [hu, if_true]
    have h2 : ¬ (alignUp r.startAddr PAGE_SIZE + PAGE_SIZE ≤ r.endAddr) := by
      intro hc; exact h ⟨hu, hc⟩
    have : (r.endAddr - alignUp r.startAddr PAGE_SIZE) / PAGE_SIZE = 0 :=
      Nat.div_eq_of_lt (by omega)
    rw [this]
    simp
  · simp [hu]

theorem nextFrame_some (rs : List MemoryRegion) (f : Nat) (rs' : List MemoryRegion)
    (h : nextFrame rs = some (f, rs')) : allFrames rs = f :: allFrames rs' := by
  induction rs with
  | nil => simp [nextFrame] at h
  | cons r rest ih =>
    by_cases hc : r.usable ∧ alignUp r.startAddr PAGE_SIZE + PAGE_SIZE ≤ r.endAddr
    · rw [nextFrame, if_pos hc] at h
      have hp := Option.some.inj h
      injection hp with h1 h2
      subst h1
      subst h2
      rw [allFrames, regionFrames_cons r hc.1 hc.2, allFrames]
      simp
    · rw [nextFrame, if_neg hc] at h
      rw [allFrames, regionFrames_nil r hc, List.nil_append]
      exact ih h

theorem nextFrame_none (rs : List MemoryRegion)
    (h : nextFrame rs = none) : allFrames rs = [] := by
  induction rs with
  | nil => rfl
  | cons r rest ih =>
    by_cases hc : r.usable ∧ alignUp r.startAddr PAGE_SIZE + PAGE_SIZE ≤ r.endAddr
    · rw [nextFrame, if_pos hc] at h
      exact absurd h (by simp)
    · rw [nextFrame, if_neg hc] at h
      rw [allFrames, regionFrames_nil r hc, List.nil_append]
      exact ih h

theorem collect_eq_take (n : Nat) (rs : List MemoryRegion) :
    collect n rs = (allFrames rs).take n := by
  induction n generalizing rs with
  | zero => rfl
  | succ n ih =>
    cases h : nextFrame rs with
    | none =>
      have h0 : allFrames rs = [] := nextFrame_none rs h
      simp [collect, h, h0]
    | some p =>
      obtain ⟨f, rs'⟩ := p
      simp only [collect, h]
      rw [nextFrame_some rs f rs' h, List.take_succ_cons, ih]

theorem mem_regionFrames {f : Nat} {r : MemoryRegion} (hf : f ∈ regionFrames r) :
    r.usable = true ∧ r.startAddr ≤ f ∧ f + PAGE_SIZE ≤ r.endAddr := by
  have hP : 0 < PAGE_SIZE := by norm_num [PAGE_SIZE]
  unfold regionFrames at hf
  by_cases hu : r.usable
  · simp only [hu, if_true, List.mem_map, List.mem_range] at hf
    obtain ⟨k, hk, rfl⟩ := hf
    refine ⟨hu, le_trans (le_alignUp _ _ hP) (Nat.le_add_right _ _), ?_⟩
    have h5 : PAGE_SIZE * (k + 1) ≤
        PAGE_SIZE * ((r.endAddr - alignUp r.startAddr PAGE_SIZE) / PAGE_SIZE) :=
      Nat.mul_le_mul_left _ hk
    have h6 : PAGE_SIZE * ((r.endAddr - alignUp r.startAddr PAGE_SIZE) / PAGE_SIZE)
        ≤ r.endAddr - alignUp r.startAddr PAGE_SIZE := by
      rw [Nat.mul_comm]
      exact Nat.div_mul_le_self _ _
    have h8 : PAGE_SIZE ≤ PAGE_SIZE * (k + 1) :=
      Nat.le_mul_of_pos_right _ (Nat.succ_pos k)
    have h7 : PAGE_SIZE ≤ r.endAddr - alignUp r.startAddr PAGE_SIZE :=
      le_trans h8 (le_trans h5 h6)
    calc alignUp r.startAddr PAGE_SIZE + PAGE_SIZE * k + PAGE_SIZE
        = alignUp r.startAddr PAGE_SIZE + PAGE_SIZE * (k + 1) := by
          rw [Nat.mul_succ, Nat.add_assoc]
      _ ≤ alignUp r.startAddr PAGE_SIZE
            + (r.endAddr - alignUp r.startAddr PAGE_SIZE) :=
          Nat.add_le_add_left (le_trans h5 h6) _
      _ = r.endAddr := by omega
  · simp [hu] at hf

theorem regionFrames_pairwise (r : MemoryRegion) :
    (regionFrames r).Pairwise (fun f g => f + PAGE_SIZE ≤ g) := by
  unfold regionFrames
  by_cases hu : r.usable
  · simp only [hu, if_true]
    rw [List.pairwise_map]
    apply List.Pairwise.imp ?_ (List.pairwise_lt_range _)
    intro a b hab
    have h1 : PAGE_SIZE * (a + 1) ≤ PAGE_SIZE * b := Nat.mul_le_mul_left _ hab
    rw [Nat.mul_succ] at h1
    calc alignUp r.startAddr PAGE_SIZE + PAGE_SIZE * a + PAGE_SIZE
        = alignUp r.startAddr PAGE_SIZE + (PAGE_SIZE * a + PAGE_SIZE) := by
          rw [Nat.add_assoc]
      _ ≤ alignUp r.startAddr PAGE_SIZE + PAGE_SIZE * b := Nat.add_le_add_left h1 _
  · simp [hu]

/-- Two 4096-byte frames do not overlap. -/
def frameDisjoint (f g : Nat) : Prop := f + PAGE_SIZE ≤ g ∨ g + PAGE_SIZE ≤ f

/-- Well-formedness of a boot memory map: usable regions are pairwise
disjoint address ranges (as reported by the boot environment). -/
def regionsDisjoint (rs : List MemoryRegion) : Prop :=
  rs.Pairwise (fun r q => r.usable = true → q.usable = true →
    r.endAddr ≤ q.startAddr ∨ q.endAddr ≤ r.startAddr)

theorem mem_allFrames {f : Nat} {rs : List MemoryRegion} (hf : f ∈ allFrames rs) :
    ∃ r ∈ rs, r.usable = true ∧ r.startAddr ≤ f ∧ f + PAGE_SIZE ≤ r.endAddr := by
  induction rs with
  | nil => simp [allFrames] at hf
  | cons r rest ih =>
    rw [allFrames, List.mem_append] at hf
    rcases hf with hf | hf
    · exact ⟨r, List.mem_cons_self _ _, mem_regionFrames hf⟩
    · obtain ⟨q, hq, hprop⟩ := ih hf
      exact ⟨q, List.mem_cons_of_mem _ hq, hprop⟩

theorem allFrames_pairwise {rs : List MemoryRegion} (hd : regionsDisjoint rs) :
    (allFrames rs).Pairwise frameDisjoint := by
  induction rs with
  | nil => exact List.Pairwise.nil
  | cons r rest ih =>
    rw [regionsDisjoint, List.pairwise_cons] at hd
    rw [allFrames, List.pairwise_append]
    refine ⟨(regionFrames_pairwise r).imp (fun h => Or.inl h), ih hd.2, ?_⟩
    intro a ha b hb
    obtain ⟨hru, hrs, hre⟩ := mem_regionFrames ha
    obtain ⟨q, hq, hqu, hqs, hqe⟩ := mem_allFrames hb
    rcases hd.1 q hq hru hqu with h | h
    · left; omega
    · right; omega

/-- C3: Frame uniqueness.  For every sequence of `next_frame()` calls on a
frame source initialized from a boot memory map whose usable regions are
pairwise disjoint, no two returned frames overlap, each returned frame lies
entirely within a region tagged usable, and no frame is ever handed out
twice (monotone hand-out). -/
theorem frame_source_uniqueness (rs : List MemoryRegion)
    (hd : regionsDisjoint rs) (n : Nat) :
    (collect n rs).Pairwise frameDisjoint ∧
    (∀ f ∈ collect n rs,
      ∃ r ∈ rs, r.usable = true ∧ r.startAddr ≤ f ∧ f + PAGE_SIZE ≤ r.endAddr) ∧
    (collect n rs).Nodup := by
  have hsub : List.Sublist (collect n rs) (allFrames rs) := by
    rw [collect_eq_take]
    exact List.take_sublist _ _
  have hp : (collect n rs).Pairwise frameDisjoint :=
    (allFrames_pairwise hd).sublist hsub
  refine ⟨hp, fun f hf => mem_allFrames (hsub.subset hf), ?_⟩
  apply List.Pairwise.imp ?_ hp
  intro a b hab heq
  have hP : 0 < PAGE_SIZE := by norm_num [PAGE_SIZE]
  subst heq
  rcases hab with h | h <;> omega

/-- Witness for C3 at a concrete two-region memory map. -/
theorem frame_source_uniqueness_witness :
    regionsDisjoint [⟨0, 8192, true⟩, ⟨8192, 12288, false⟩] ∧
    ((collect 2 [⟨0, 8192, true⟩, ⟨8192, 12288, false⟩]).Pairwise frameDisjoint ∧
      (∀ f ∈ collect 2 [⟨0, 8192, true⟩, ⟨8192, 12288, false⟩],
        ∃ r ∈ [(⟨0, 8192, true⟩ : MemoryRegion), ⟨8192, 12288, false⟩],
          r.usable = true ∧ r.startAddr ≤ f ∧ f + PAGE_SIZE ≤ r.endAddr) ∧
      (collect 2 [⟨0, 8192, true⟩, ⟨8192, 12288, false⟩]).Nodup) :=
  ⟨by unfold regionsDisjoint; decide,
    frame_source_uniqueness [⟨0, 8192, true⟩, ⟨8192, 12288, false⟩]
      (by unfold regionsDisjoint; decide) 2⟩

/-- C4: Frame source enumeration order and edge cases.  A run of `n`
`next_frame()` calls returns exactly the first `n` elements of the fixed
enumeration `allFrames` (region list in boot order, reserved regions
skipped, successive page-aligned frames from the first page boundary at or
after the region start, stopping before the region end); a usable region
smaller than one page contributes zero frames; a reserved region contributes
zero frames; and once `next_frame()` signals exhaustion every subsequent
call yields nothing. -/
theorem frame_source_enumeration (rs : List MemoryRegion) (n m : Nat)
    (r : MemoryRegion) :
    collect n rs = (allFrames rs).take n ∧
    (r.endAddr - r.startAddr < PAGE_SIZE → regionFrames r = []) ∧
    (r.usable = false → regionFrames r = []) ∧
    (nextFrame rs = none → collect m rs = []) := by
  have hP : 0 < PAGE_SIZE := by norm_num [PAGE_SIZE]
  refine ⟨collect_eq_take n rs, ?_, ?_, ?_⟩
  · intro hsmall
    apply regionFrames_nil
    rintro ⟨hu, hle⟩
    have hA := le_alignUp r.startAddr PAGE_SIZE hP
    omega
  · intro hres
    apply regionFrames_nil
    rintro ⟨hu, _⟩
    simp [hres] at hu
  · intro hnone
    rw [collect_eq_take, nextFrame_none rs hnone]
    simp

/-- Witness for C4: a usable region smaller than one page exhausts the
source immediately, and repeated calls keep signalling exhaustion. -/
theorem frame_source_enumeration_witness :
    ((⟨0, 4095, true⟩ : MemoryRegion).endAddr
        - (⟨0, 4095, true⟩ : MemoryRegion).startAddr < PAGE_SIZE ∧
      nextFrame [⟨0, 4095, true⟩] = none) ∧
    regionFrames ⟨0, 4095, true⟩ = [] ∧
    collect 5 [⟨0, 4095, true⟩] = [] :=
  ⟨⟨by decide, by decide⟩,
    (frame_source_enumeration [⟨0, 4095, true⟩] 2 5 ⟨0, 4095, true⟩).2.1 (by decide),
    (frame_source_enumeration [⟨0, 4095, true⟩] 2 5 ⟨0, 4095, true⟩).2.2.2 (by decide)⟩

/-! ### Heap Allocator

Modelled from the spec: `big_iron::allocator` (the file `src/allocator.rs`
is not in the repository snapshot; only its caller
`allocator::init_heap(&mut mapper, &mut frame_allocator)` at
`src/main.rs:28` is).  The spec (§4.3, §3, §9): the allocator keeps an
in-place linked list of free blocks; each free block's first bytes hold the
bookkeeping fields (size and next-pointer, 8 bytes each on x86-64), so every
free block must be at least `MIN_BLOCK_SIZE = 16` bytes and every request is
padded up to that minimum before it is served or freed.  `allocate` scans
the free list first-fit; the front gap lost to alignment and any trailing
remainder smaller than the minimum block size are consumed as padding, a
trailing remainder of at least the minimum becomes a new free block.
`deallocate` reinserts the freed range at the list head.  Zero-size
requests succeed without touching the allocator (the language layer hands
out a dangling aligned pointer and never calls into it). -/

/-- Minimum block size: large enough to hold the size and next-pointer
bookkeeping fields (two 8-byte words). -/
def MIN_BLOCK_SIZE : Nat := 16

/-- The allocator's free list: blocks `(start, size)` in list order. -/
structure HeapState where
  free : List (Nat × Nat)
deriving DecidableEq

/-- The effective size of a request: padded up to the minimum block size so
that the range can later hold the free-block bookkeeping fields. -/
def effSize (size : Nat) : Nat := max size MIN_BLOCK_SIZE

/-- First-fit scan: find the first block whose start, rounded up to `align`,
leaves `s` bytes before the block's end; split off a trailing remainder of
at least the minimum block size as a new free block, otherwise consume it as
padding. -/
def allocGo (s align : Nat) : List (Nat × Nat) → Option (Nat × List (Nat × Nat))
  | [] => none
  | b :: rest =>
    if alignUp b.1 align + s ≤ b.1 + b.2 then
      some (alignUp b.1 align,
        if MIN_BLOCK_SIZE ≤ b.1 + b.2 - (alignUp b.1 align + s) then
          (alignUp b.1 align + s, b.1 + b.2 - (alignUp b.1 align + s)) :: rest
        else rest)
    else
      match allocGo s align rest with
      | none => none
      | some (addr, rest') => some (addr, b :: rest')

/-- Modelled from the spec: `allocate(size, align)`.  Returns the address
and the new allocator state, or `none` (heap exhausted) when no free block
fits.  A zero-size request always succeeds with a dangling aligned pointer
and leaves the state unchanged. -/
def allocate (h : HeapState) (size align : Nat) : Option Nat × HeapState :=
  if size = 0 then (some align, h)
  else
    match allocGo (effSize size) align h.free with
    | none => (none, h)
    | some (a, free') => (some a, ⟨free'⟩)

/-- Modelled from the spec: `deallocate(ptr, size)` reinserts the freed
range (padded to the effective size, exactly as it was carved) as a new
free block at the list head; size-zero deallocation is a no-op. -/
def deallocate (h : HeapState) (ptr size : Nat) : HeapState :=
  if size = 0 then h else ⟨(ptr, effSize size) :: h.free⟩

theorem allocGo_none (s align : Nat) (l : List (Nat × Nat)) :
    allocGo s align l = none →
      ∀ b ∈ l, ¬ (alignUp b.1 align + s ≤ b.1 + b.2) := by
  induction l with
  | nil => intro _ b hb; simp at hb
  | cons b rest ih =>
    intro h c hc
    rw [allocGo] at h
    by_cases hfit : alignUp b.1 align + s ≤ b.1 + b.2
    · rw [if_pos hfit] at h
      exact absurd h (by simp)
    · rw [if_neg hfit] at h
      rcases List.mem_cons.mp hc with rfl | hc'
      · exact hfit
      · cases hgo : allocGo s align rest with
        | none => exact ih hgo c hc'
        | some p =>
          obtain ⟨pa, pr⟩ := p
          rw [hgo] at h
          simp at h

theorem allocGo_some (s align : Nat) (l : List (Nat × Nat)) :
    ∀ (a : Nat) (l' : List (Nat × Nat)), allocGo s align l = some (a, l') →
    ∃ pre b post, l = pre ++ b :: post ∧
      (∀ c ∈ pre, ¬ (alignUp c.1 align + s ≤ c.1 + c.2)) ∧
      (alignUp b.1 align + s ≤ b.1 + b.2) ∧
      a = alignUp b.1 align ∧
      l' = pre ++ (if MIN_BLOCK_SIZE ≤ b.1 + b.2 - (a + s) then
          [(a + s, b.1 + b.2 - (a + s))] else []) ++ post := by
  induction l with
  | nil => intro a l' h; simp [allocGo] at h
  | cons b rest ih =>
    intro a l' h
    rw [allocGo] at h
    by_cases hfit : alignUp b.1 align + s ≤ b.1 + b.2
    · rw [if_pos hfit] at h
      have hp := Option.some.inj h
      injection hp with h1 h2
      subst h1
      subst h2
      refine ⟨[], b, rest, rfl, by simp, hfit, rfl, ?_⟩
      by_cases hrem : MIN_BLOCK_SIZE ≤ b.1 + b.2 - (alignUp b.1 align + s)
      · simp [hrem]
      · simp [hrem]
    · rw [if_neg hfit] at h
      cases hgo : allocGo s align rest with
      | none => rw [hgo] at h; simp at h
      | some p =>
        obtain ⟨pa, pr⟩ := p
        rw [hgo] at h
        simp only [] at h
        have hp := Option.some.inj h
        injection hp with h1 h2
        subst h1
        subst h2
        obtain ⟨pre, bb, post, hsplit, hpre, hbfit, ha, hrest⟩ := ih pa pr hgo
        refine ⟨b :: pre, bb, post, by rw [hsplit]; rfl, ?_, hbfit, ha, ?_⟩
        · intro c hc
          rcases List.mem_cons.mp hc with rfl | hc'
          · exact hfit
          · exact hpre c hc'
        · rw [hrest]; rfl

/-- Two byte ranges `[b.1, b.1 + b.2)` and `[c.1, c.1 + c.2)` do not
overlap. -/
def disjointB (b c : Nat × Nat) : Prop := b.1 + b.2 ≤ c.1 ∨ c.1 + c.2 ≤ b.1

theorem disjointB_symm : Symmetric disjointB := fun _ _ h => Or.symm h

theorem disjointB_mono {x b c : Nat × Nat}
    (hsub : b.1 ≤ c.1 ∧ c.1 + c.2 ≤ b.1 + b.2) (h : disjointB x b) :
    disjointB x c := by
  rcases h with h | h
  · left; omega
  · right; omega

theorem pairwise_replace (pre post news : List (Nat × Nat)) (b : Nat × Nat)
    (hp : (pre ++ b :: post).Pairwise disjointB)
    (hsub : ∀ c ∈ news, b.1 ≤ c.1 ∧ c.1 + c.2 ≤ b.1 + b.2)
    (hn : news.Pairwise disjointB) :
    (pre ++ news ++ post).Pairwise disjointB := by
  rw [List.pairwise_append] at hp
  obtain ⟨hpre, hbp, hcross⟩ := hp
  rw [List.pairwise_cons] at hbp
  obtain ⟨hbpost, hpost⟩ := hbp
  rw [List.append_assoc, List.pairwise_append]
  refine ⟨hpre, ?_, ?_⟩
  · rw [List.pairwise_append]
    refine ⟨hn, hpost, ?_⟩
    intro c hc y hy
    exact disjointB_symm (disjointB_mono (hsub c hc) (disjointB_symm (hbpost y hy)))
  · intro x hx y hy
    rw [List.mem_append] at hy
    rcases hy with hy | hy
    · exact disjointB_mono (hsub y hy) (hcross x hx b (List.mem_cons_self _ _))
    · exact hcross x hx y (List.mem_cons_of_mem _ hy)

/-- Remove the first occurrence of `b` from the ghost live list. -/
def removeLive (l : List (Nat × Nat)) (b : Nat × Nat) : List (Nat × Nat) :=
  match l with
  | [] => []
  | c :: rest => if c = b then rest else c :: removeLive rest b

theorem perm_cons_removeLive {b : Nat × Nat} {l : List (Nat × Nat)} (h : b ∈ l) :
    l.Perm (b :: removeLive l b) := by
  induction l with
  | nil => simp at h
  | cons c rest ih =>
    by_cases hc : c = b
    · subst hc
      rw [removeLive, if_pos rfl]
    · rw [removeLive, if_neg hc]
      rcases List.mem_cons.mp h with rfl | h'
      · exact absurd rfl hc
      · exact (List.Perm.cons c (ih h')).trans (List.Perm.swap _ _ _)

theorem removeLive_subset {x b : Nat × Nat} {l : List (Nat × Nat)}
    (h : x ∈ removeLive l b) : x ∈ l := by
  induction l with
  | nil => simp [removeLive] at h
  | cons c rest ih =>
    by_cases hc : c = b
    · subst hc
      rw [removeLive, if_pos rfl] at h
      exact List.mem_cons_of_mem _ h
    · rw [removeLive, if_neg hc] at h
      rcases List.mem_cons.mp h with rfl | h'
      · exact List.mem_cons_self _ _
      · exact List.mem_cons_of_mem _ (ih h')

/-- One client request to the allocator. -/
inductive HeapOp
  | alloc (size align : Nat)
  | dealloc (ptr size : Nat)

/-- The allocator state together with the ghost list of live allocations
`(address, effective size)` handed out and not yet freed. -/
structure AllocatorState where
  heap : HeapState
  live : List (Nat × Nat)

/-- Execute one request: `alloc` calls `allocate` and, on success of a
nonzero-size request, records the carved range as live; `dealloc` calls
`deallocate` and removes the freed range from the live set. -/
def stepOp (st : AllocatorState) : HeapOp → AllocatorState
  | .alloc size align =>
    match allocate st.heap size align with
    | (some a, h') =>
      if size = 0 then st else ⟨h', (a, effSize size) :: st.live⟩
    | (none, _) => st
  | .dealloc p size =>
    if size = 0 then st
    else ⟨deallocate st.heap p size, removeLive st.live (p, effSize size)⟩

def runOps (st : AllocatorState) : List HeapOp → AllocatorState
  | [] => st
  | op :: ops => runOps (stepOp st op) ops

def isPow2 (n : Nat) : Prop := ∃ k, n = 2 ^ k

/-- A request is valid when it respects the allocator's contract: requested
alignments are powers of two (spec §4.3), and a nonzero-size `dealloc`
frees a currently live allocation with its original size. -/
def ValidOp (st : AllocatorState) : HeapOp → Prop
  | .alloc _ align => isPow2 align
  | .dealloc p size => size = 0 ∨ (p, effSize size) ∈ st.live

def ValidOps : AllocatorState → List HeapOp → Prop
  | _, [] => True
  | st, op :: ops => ValidOp st op ∧ ValidOps (stepOp st op) ops

/-- The allocator state right after `init_heap`: one free block spanning
the whole heap region, no live allocations. -/
def initAllocator (heapStart heapSize : Nat) : AllocatorState :=
  ⟨⟨[(heapStart, heapSize)]⟩, []⟩

/-- The range `[b.1, b.1 + b.2)` lies inside the heap region. -/
def inHeap (hs hsz : Nat) (b : Nat × Nat) : Prop :=
  hs ≤ b.1 ∧ b.1 + b.2 ≤ hs + hsz

/-- Heap integrity: free blocks and live allocations are pairwise
non-overlapping, every free block is at least the minimum block size, and
everything lies inside the heap region. -/
def HeapInv (hs hsz : Nat) (st : AllocatorState) : Prop :=
  (st.heap.free ++ st.live).Pairwise disjointB ∧
  (∀ b ∈ st.heap.free, MIN_BLOCK_SIZE ≤ b.2 ∧ inHeap hs hsz b) ∧
  (∀ b ∈ st.live, inHeap hs hsz b)

theorem stepOp_preserves (hs hsz : Nat) (st : AllocatorState) (op : HeapOp)
    (hinv : HeapInv hs hsz st) (hop : ValidOp st op) :
    HeapInv hs hsz (stepOp st op) := by
  obtain ⟨hpw, hfree, hlive⟩ := hinv
  cases op with
  | alloc size align =>
    obtain ⟨k, rfl⟩ := hop
    have halign : 0 < 2 ^ k := Nat.pos_pow_of_pos k (by omega)
    by_cases hz : size = 0
    · subst hz
      simp only [stepOp, allocate, if_pos rfl]
      exact ⟨hpw, hfree, hlive⟩
    · rw [stepOp]
      rw [allocate, if_neg hz]
      cases hgo : allocGo (effSize size) (2 ^ k) st.heap.free with
      | none => exact ⟨hpw, hfree, hlive⟩
      | some p =>
        obtain ⟨a, free'⟩ := p
        simp only [if_neg hz]
        obtain ⟨pre, b, post, hsplit, hpre, hfit, ha, hrest⟩ :=
          allocGo_some _ _ _ a free' hgo
        subst ha
        have hba : b.1 ≤ alignUp b.1 (2 ^ k) := le_alignUp b.1 (2 ^ k) halign
        have hbmem : b ∈ st.heap.free := by
          rw [hsplit]; exact List.mem_append_right _ (List.mem_cons_self _ _)
        obtain ⟨hbmin, hbin⟩ := hfree b hbmem
        obtain ⟨hbin1, hbin2⟩ := hbin
        set A := alignUp b.1 (2 ^ k) with hAdef
        set e := effSize size with hedef
        set rem := b.1 + b.2 - (A + e) with hremdef
        have hremrange : A + e + rem = b.1 + b.2 := by omega
        refine ⟨?_, ?_, ?_⟩
        · -- non-overlap of the new free list plus the new live block
          have hold : (pre ++ b :: (post ++ st.live)).Pairwise disjointB := by
            have heq : st.heap.free ++ st.live = pre ++ b :: (post ++ st.live) := by
              rw [hsplit]; simp
            rw [← heq]; exact hpw
          have hnews : List.Pairwise disjointB ((A, e) ::
              (if MIN_BLOCK_SIZE ≤ rem then [(A + e, rem)] else [])) := by
            by_cases hr : MIN_BLOCK_SIZE ≤ rem
            · rw [if_pos hr]
              refine List.pairwise_cons.mpr ⟨?_, List.pairwise_singleton _ _⟩
              intro y hy
              rcases List.mem_singleton.mp hy with rfl
              exact Or.inl (Nat.le_refl (A + e))
            · rw [if_neg hr]
              exact List.pairwise_singleton _ _
          have hsub : ∀ c ∈ ((A, e) ::
              (if MIN_BLOCK_SIZE ≤ rem then [(A + e, rem)] else [])),
              b.1 ≤ c.1 ∧ c.1 + c.2 ≤ b.1 + b.2 := by
            intro c hc
            rcases List.mem_cons.mp hc with rfl | hc'
            · exact ⟨hba, hfit⟩
            · by_cases hr : MIN_BLOCK_SIZE ≤ rem
              · rw [if_pos hr] at hc'
                rcases List.mem_singleton.mp hc' with rfl
                exact ⟨by omega, by rw [hremrange]⟩
              · rw [if_neg hr] at hc'
                simp at hc'
          have hrep := pairwise_replace pre (post ++ st.live) _ b hold hsub hnews
          have hperm : ((pre ++ (if MIN_BLOCK_SIZE ≤ rem then
                [(A + e, rem)] else []) ++ post) ++ (A, e) :: st.live).Perm
              (pre ++ ((A, e) ::
                (if MIN_BLOCK_SIZE ≤ rem then [(A + e, rem)] else [])) ++
                  (post ++ st.live)) := by
            rw [List.append_assoc, List.append_assoc, List.append_assoc]
            apply List.Perm.append_left pre
            by_cases hr : MIN_BLOCK_SIZE ≤ rem
            · simp only [if_pos hr, List.singleton_append, List.cons_append]
              exact (List.Perm.cons _ List.perm_middle).trans
                (List.Perm.swap _ _ _)
            · simp only [if_neg hr, List.nil_append, List.cons_append]
              exact List.perm_middle
          rw [hrest]
          exact (hperm.pairwise_iff (fun h => Or.symm h)).mpr hrep
        · -- every free block is big enough and inside the heap
          intro c hc
          rw [hrest] at hc
          rw [List.append_assoc, List.mem_append, List.mem_append] at hc
          rcases hc with hc | hc | hc
          · exact hfree c (by rw [hsplit]; exact List.mem_append_left _ hc)
          · by_cases hr : MIN_BLOCK_SIZE ≤ rem
            · rw [if_pos hr] at hc
              rcases List.mem_singleton.mp hc with rfl
              exact ⟨hr, by show hs ≤ A + e; omega, by show A + e + rem ≤ hs + hsz; omega⟩
            · rw [if_neg hr] at hc
              simp at hc
          · exact hfree c (by
              rw [hsplit]
              exact List.mem_append_right _ (List.mem_cons_of_mem _ hc))
        · -- every live allocation is inside the heap
          intro c hc
          rcases List.mem_cons.mp hc with rfl | hc'
          · exact ⟨by show hs ≤ A; omega, by show A + e ≤ hs + hsz; omega⟩
          · exact hlive c hc'
  | dealloc p size =>
    by_cases hz : size = 0
    · subst hz
      simp only [stepOp, if_pos rfl]
      exact ⟨hpw, hfree, hlive⟩
    · rcases hop with hop | hop
      · exact absurd hop hz
      · rw [stepOp, if_neg hz]
        rw [deallocate, if_neg hz]
        refine ⟨?_, ?_, ?_⟩
        · have hperm : (((p, effSize size) :: st.heap.free) ++
              removeLive st.live (p, effSize size)).Perm (st.heap.free ++ st.live) := by
            rw [List.cons_append]
            exact List.perm_middle.symm.trans
              (List.Perm.append_left _ (perm_cons_removeLive hop).symm)
          exact (hperm.pairwise_iff (fun h => Or.symm h)).mpr hpw
        · intro c hc
          rcases List.mem_cons.mp hc with rfl | hc'
          · exact ⟨le_max_right _ _, hlive _ hop⟩
          · exact hfree c hc'
        · intro c hc
          exact hlive c (removeLive_subset hc)

theorem runOps_preserves (hs hsz : Nat) (st : AllocatorState)
    (ops : List HeapOp) (hinv : HeapInv hs hsz st) (hv : ValidOps st ops) :
    HeapInv hs hsz (runOps st ops) := by
  induction ops generalizing st with
  | nil => exact hinv
  | cons op ops ih =>
    obtain ⟨h1, h2⟩ := hv
    exact ih _ (stepOp_preserves hs hsz st op hinv h1) h2

theorem initAllocator_inv (hs hsz : Nat) (hmin : MIN_BLOCK_SIZE ≤ hsz) :
    HeapInv hs hsz (initAllocator hs hsz) := by
  refine ⟨List.pairwise_singleton _ _, ?_, by intro b hb; simp [initAllocator] at hb⟩
  intro b hb
  rcases List.mem_singleton.mp hb with rfl
  exact ⟨hmin, le_refl _, le_refl _⟩

/-- C1: Heap integrity invariant.  For every valid sequence of
allocate/deallocate requests starting from an initialized heap (one free
block spanning the heap region), at every point in time the live
allocations and free blocks are pairwise non-overlapping and every free
block's recorded size is at least the minimum block size.  Since every
prefix of a valid sequence is itself a valid sequence, quantifying over all
sequences covers every intermediate point in time. -/
theorem heap_integrity (hs hsz : Nat) (ops : List HeapOp)
    (hmin : MIN_BLOCK_SIZE ≤ hsz)
    (hv : ValidOps (initAllocator hs hsz) ops) :
    HeapInv hs hsz (runOps (initAllocator hs hsz) ops) :=
  runOps_preserves hs hsz _ ops (initAllocator_inv hs hsz hmin) hv

/-- Witness for C1: allocate 20 bytes at alignment 4 from a 64-byte heap,
then free them again. -/
theorem heap_integrity_witness :
    (MIN_BLOCK_SIZE ≤ 64 ∧
      ValidOps (initAllocator 0 64) [.alloc 20 4, .dealloc 0 20]) ∧
    HeapInv 0 64 (runOps (initAllocator 0 64) [.alloc 20 4, .dealloc 0 20]) :=
  ⟨⟨by decide, ⟨⟨2, rfl⟩, Or.inr (by decide), trivial⟩⟩,
    heap_integrity 0 64 [.alloc 20 4, .dealloc 0 20] (by decide)
      ⟨⟨2, rfl⟩, Or.inr (by decide), trivial⟩⟩

/-- C2: Alignment and containment.  In any allocator state reached from an
initialized heap by valid requests, a successful `allocate(size, align)`
with `align` a power of two up to the page size returns an address
divisible by `align`, and every byte of the returned range lies inside the
heap region `[hs, hs + hsz)`. -/
theorem allocate_aligned_contained (hs hsz size align : Nat) (ops : List HeapOp)
    (hmin : MIN_BLOCK_SIZE ≤ hsz)
    (hv : ValidOps (initAllocator hs hsz) ops)
    (hp2 : isPow2 align) (hle : align ≤ PAGE_SIZE)
    (a : Nat) (h' : HeapState)
    (hcall : allocate (runOps (initAllocator hs hsz) ops).heap size align
      = (some a, h')) :
    align ∣ a ∧ (∀ x, a ≤ x → x < a + size → hs ≤ x ∧ x < hs + hsz) := by
  obtain ⟨k, rfl⟩ := hp2
  have halign : 0 < 2 ^ k := Nat.pos_pow_of_pos k (by omega)
  have hinv := runOps_preserves hs hsz _ ops (initAllocator_inv hs hsz hmin) hv
  obtain ⟨_, hfree, _⟩ := hinv
  by_cases hz : size = 0
  · subst hz
    rw [allocate, if_pos rfl] at hcall
    injection hcall with hc1 hc2
    have ha : a = 2 ^ k := (Option.some.inj hc1).symm
    subst ha
    exact ⟨dvd_refl _, fun x hx1 hx2 => absurd (lt_of_le_of_lt hx1 hx2) (by omega)⟩
  · rw [allocate, if_neg hz] at hcall
    cases hgo : allocGo (effSize size) (2 ^ k)
        (runOps (initAllocator hs hsz) ops).heap.free with
    | none => rw [hgo] at hcall; simp at hcall
    | some p =>
      obtain ⟨a', free'⟩ := p
      rw [hgo] at hcall
      simp only [] at hcall
      injection hcall with hc1 hc2
      have ha : a = a' := (Option.some.inj hc1).symm
      subst ha
      obtain ⟨pre, b, post, hsplit, hpre, hfit, ha, hrest⟩ :=
        allocGo_some _ _ _ a free' hgo
      subst ha
      have hbmem : b ∈ (runOps (initAllocator hs hsz) ops).heap.free := by
        rw [hsplit]; exact List.mem_append_right _ (List.mem_cons_self _ _)
      obtain ⟨hbmin, hbin1, hbin2⟩ := hfree b hbmem
      have hba : b.1 ≤ alignUp b.1 (2 ^ k) := le_alignUp b.1 (2 ^ k) halign
      have hsle : size ≤ effSize size := le_max_left _ _
      refine ⟨alignUp_dvd _ _, fun x hx1 hx2 => ?_⟩
      constructor
      · omega
      · omega

/-- Witness for C2 at a concrete fresh heap. -/
theorem allocate_aligned_contained_witness :
    (MIN_BLOCK_SIZE ≤ 32 ∧ isPow2 8 ∧ 8 ≤ PAGE_SIZE ∧
      allocate (runOps (initAllocator 0 32) []).heap 8 8 = (some 0, ⟨[(16, 16)]⟩)) ∧
    (8 ∣ 0 ∧ (0 ≤ 3 ∧ 3 < 0 + 32)) :=
  ⟨⟨by decide, ⟨3, rfl⟩, by decide, by decide⟩,
    (allocate_aligned_contained 0 32 8 8 [] (by decide) trivial ⟨3, rfl⟩
        (by decide) 0 ⟨[(16, 16)]⟩ (by decide)).imp id
      (fun hall => hall 3 (by decide) (by decide))⟩

/-- C7 counterexample: the claim says `allocate(size, align)` carves from
the first free block whose start, rounded up to `align`, still leaves
`size` bytes before the block's end, and fails exactly when no block passes
that test.  In the state with free list `[(16, 17), (33, 95)]` (which
satisfies the allocator's own invariant for a 128-byte heap, and is
reachable from a fresh 128-byte heap) the request `allocate(1, 32)` has
`alignUp 16 32 + 1 = 33 ≤ 33`, so the first block passes the claim's test
with address 32 — yet the allocator skips it and returns 64, carved from
the second block, because the request is padded to the 16-byte minimum
block size and `alignUp 16 32 + 16 > 33`. -/
theorem allocate_first_fit_counterexample :
    (alignUp 16 32 + 1 ≤ 16 + 17) ∧
    (allocate ⟨[(16, 17), (33, 95)]⟩ 1 32).1 = some 64 ∧
    HeapInv 0 128 ⟨⟨[(16, 17), (33, 95)]⟩, []⟩ := by
  refine ⟨by decide, by decide, ?_, ?_, ?_⟩
  · simp only [HeapState.free, List.append_nil]
    exact List.pairwise_cons.mpr
      ⟨fun y hy => by rcases List.mem_singleton.mp hy with rfl; left; decide,
        List.pairwise_singleton _ _⟩
  · intro b hb
    rcases List.mem_cons.mp hb with rfl | hb'
    · exact ⟨by decide, by decide, by decide⟩
    · rcases List.mem_singleton.mp hb' with rfl
      exact ⟨by decide, by decide, by decide⟩
  · intro b hb
    simp at hb

/-- C7 (amended): first-fit allocation with the effective size.
`allocate(size, align)` (for a nonzero size) fails exactly when no free
block's start, rounded up to `align`, leaves `effSize size` (the request
padded up to the minimum block size) bytes before the block's end; on
success it returns the aligned start of the first such block, and the new
free list replaces that block by the trailing remainder when that remainder
is at least the minimum block size, consuming it as padding otherwise. -/
theorem allocate_first_fit (free : List (Nat × Nat)) (size align a : Nat)
    (h' : HeapState) (hsz : 0 < size) :
    ((allocate ⟨free⟩ size align).1 = none ↔
      ∀ b ∈ free, ¬ (alignUp b.1 align + effSize size ≤ b.1 + b.2)) ∧
    (allocate ⟨free⟩ size align = (some a, h') →
      ∃ pre b post, free = pre ++ b :: post ∧
        (∀ c ∈ pre, ¬ (alignUp c.1 align + effSize size ≤ c.1 + c.2)) ∧
        (alignUp b.1 align + effSize size ≤ b.1 + b.2) ∧
        a = alignUp b.1 align ∧
        h'.free = pre ++ (if MIN_BLOCK_SIZE ≤ b.1 + b.2 - (a + effSize size)
            then [(a + effSize size, b.1 + b.2 - (a + effSize size))]
            else []) ++ post) := by
  have hz : size ≠ 0 := Nat.pos_iff_ne_zero.mp hsz
  constructor
  · constructor
    · intro hnone
      rw [allocate, if_neg hz] at hnone
      cases hgo : allocGo (effSize size) align free with
      | none => exact allocGo_none _ _ _ hgo
      | some p =>
        obtain ⟨pa, pr⟩ := p
        rw [hgo] at hnone
        simp at hnone
    · intro hall
      rw [allocate, if_neg hz]
      cases hgo : allocGo (effSize size) align free with
      | none => rfl
      | some p =>
        obtain ⟨pa, pr⟩ := p
        obtain ⟨pre, b, post, hsplit, _, hfit, _, _⟩ :=
          allocGo_some _ _ _ pa pr hgo
        exact absurd hfit (hall b (by
          rw [hsplit]; exact List.mem_append_right _ (List.mem_cons_self _ _)))
  · intro hcall
    rw [allocate, if_neg hz] at hcall
    cases hgo : allocGo (effSize size) align free with
    | none => rw [hgo] at hcall; simp at hcall
    | some p =>
      obtain ⟨pa, pr⟩ := p
      rw [hgo] at hcall
      simp only [] at hcall
      injection hcall with hc1 hc2
      have ha : a = pa := (Option.some.inj hc1).symm
      subst ha
      obtain ⟨pre, b, post, hsplit, hpre, hfit, ha, hrest⟩ :=
        allocGo_some _ _ _ a pr hgo
      exact ⟨pre, b, post, hsplit, hpre, hfit, ha, by rw [← hc2, hrest]⟩

/-- Witness for C7 (amended): an 8-byte request padded to 16 bytes does not
fit in a 10-byte block, so allocation fails. -/
theorem allocate_first_fit_witness :
    0 < 8 ∧ (allocate ⟨[(0, 10)]⟩ 8 1).1 = none :=
  ⟨by decide,
    (allocate_first_fit [(0, 10)] 8 1 0 ⟨[]⟩ (by decide)).1.mpr (by decide)⟩

/-- C8: Zero-size requests.  For every allocator state, every alignment and
every pointer, `allocate(0, align)` succeeds (returning a dangling aligned
pointer) and leaves the allocator state unchanged, and `deallocate(ptr, 0)`
is a no-op that leaves the free list unchanged. -/
theorem zero_size_requests (h : HeapState) (align ptr : Nat) :
    (allocate h 0 align).1.isSome ∧ (allocate h 0 align).2 = h ∧
    deallocate h ptr 0 = h :=
  ⟨by simp [allocate], by simp [allocate], by simp [deallocate]⟩

/-! ### Address-Space Mapper

Modelled from the spec: `big_iron::memory::init` / `map_page` (the file
`src/memory.rs` is not in the repository snapshot; only the calls at
`src/main.rs:25` and, through `init_heap`, `src/main.rs:28` are).  The spec
(§4.2): walk the fixed-depth page-table hierarchy from the root, using
successive 9-bit slices of the virtual page index; at each of the three
intermediate levels, if the required child table does not exist, request a
new frame from the frame source, zero-initialize it and install it with
default present/writable flags; at the leaf level refuse to overwrite an
existing entry (`PageAlreadyMapped`) and otherwise install the caller's
frame and flags.  Page tables live in a table memory indexed by physical
frame address; all accesses go through the physical-memory-offset mapping,
which the shallow embedding renders as direct lookups. -/

/-- A page-table entry: absent, or present with a target physical address
(child table at intermediate levels, mapped frame at the leaf level) and
flag bits. -/
inductive Entry
  | notPresent
  | present (addr flags : Nat)
deriving DecidableEq

/-- A page table, as a map from entry index (0..511) to entry. -/
def PageTable : Type := Nat → Entry

/-- A zero-initialized page table: every entry absent. -/
def emptyTable : PageTable := fun _ => Entry.notPresent

/-- The table memory: physical frame address to the page table stored
there, `none` when the frame holds no page table. -/
def Mem : Type := Nat → Option PageTable

def tableOf (mem : Mem) (a : Nat) : PageTable := (mem a).getD emptyTable

/-- Read entry `i` of the table at frame `a`. -/
def memAt (mem : Mem) (a i : Nat) : Entry := tableOf mem a i

def updateTable (t : PageTable) (i : Nat) (e : Entry) : PageTable :=
  fun j => if j = i then e else t j

/-- Default flags for a newly created intermediate table: present and
writable. -/
def TABLE_FLAGS : Nat := 3

/-- Create a zeroed child table at fresh frame `f` and install the entry
`(tbl, i) ↦ present f` (the spec's zero-initialize-then-install step). -/
def installChild (mem : Mem) (tbl i f : Nat) : Mem :=
  fun x =>
    if x = tbl then
      some (updateTable (tableOf mem tbl) i (Entry.present f TABLE_FLAGS))
    else if x = f then some emptyTable
    else mem x

/-- Write entry `(tbl, i) ↦ e`. -/
def setEntry (mem : Mem) (tbl i : Nat) (e : Entry) : Mem :=
  fun x =>
    if x = tbl then some (updateTable (tableOf mem tbl) i e) else mem x

/-- The mapper's error values, reported to the caller rather than faulting. -/
inductive MapError
  | frameAllocationFailed
  | pageAlreadyMapped
deriving DecidableEq

/-- Walk the intermediate levels from table `tbl` along the index list,
creating missing child tables from the frame source; returns the reached
leaf-level table (or `FrameAllocationFailed`), together with the mutated
table memory and the remaining frames. -/
def walkCreate (mem : Mem) (fs : List Nat) (tbl : Nat) :
    List Nat → Except MapError Nat × Mem × List Nat
  | [] => (.ok tbl, mem, fs)
  | i :: is =>
    match memAt mem tbl i with
    | .present a _ => walkCreate mem fs a is
    | .notPresent =>
      match fs with
      | [] => (.error .frameAllocationFailed, mem, fs)
      | f :: fs' => walkCreate (installChild mem tbl i f) fs' f is

/-- The three intermediate-level 9-bit index slices of a virtual address
(levels 4, 3, 2 of x86-64 4-KiB paging). -/
def tableIndices (vp : Nat) : List Nat :=
  [vp / 2 ^ 39 % 512, vp / 2 ^ 30 % 512, vp / 2 ^ 21 % 512]

/-- The leaf-level 9-bit index slice of a virtual address. -/
def leafIndex (vp : Nat) : Nat := vp / 2 ^ 12 % 512

/-- Modelled from the spec: `map_page(mapper, virtual_page, frame, flags,
frame_source)`.  Walks the hierarchy creating intermediate tables as
needed, then installs the leaf entry, refusing to overwrite an existing
mapping. -/
def mapPage (root : Nat) (mem : Mem) (fs : List Nat)
    (vp frame flags : Nat) : Except MapError Unit × Mem × List Nat :=
  match walkCreate mem fs root (tableIndices vp) with
  | (.error e, mem', fs') => (.error e, mem', fs')
  | (.ok leafTbl, mem', fs') =>
    match memAt mem' leafTbl (leafIndex vp) with
    | .present _ _ => (.error .pageAlreadyMapped, mem', fs')
    | .notPresent =>
      (.ok (), setEntry mem' leafTbl (leafIndex vp) (.present frame flags), fs')

/-- How many leading levels of the walk already have their child table
present (0 to 3): the number of intermediate tables that must be created is
the index-list length minus this. -/
def existingPath (mem : Mem) (tbl : Nat) : List Nat → Nat
  | [] => 0
  | i :: is =>
    match memAt mem tbl i with
    | .present a _ => existingPath mem a is + 1
    | .notPresent => 0

/-- Read-only walk: the leaf-level table reached along the index list, when
every level is already present. -/
def walkRO (mem : Mem) (tbl : Nat) : List Nat → Option Nat
  | [] => some tbl
  | i :: is =>
    match memAt mem tbl i with
    | .present a _ => walkRO mem a is
    | .notPresent => none

/-- Whether a page-table entry is present. -/
def isPresent : Entry → Bool
  | .present _ _ => true
  | .notPresent => false

/-- Whether the leaf page-table entry for virtual page `vp` is present. -/
def leafMapped (mem : Mem) (root vp : Nat) : Bool :=
  match walkRO mem root (tableIndices vp) with
  | some t => isPresent (memAt mem t (leafIndex vp))
  | none => false

/-- Table-memory extension: the domain grows and every present entry is
preserved unchanged (the mapper only fills absent slots and fresh frames). -/
def MemLe (m m' : Mem) : Prop :=
  (∀ a, (m a).isSome → (m' a).isSome) ∧
  (∀ a i, memAt m a i ≠ Entry.notPresent → memAt m' a i = memAt m a i)

/-- Well-formedness of the table memory, witnessed by a level assignment:
in any table of level at least 2, a present entry points to a table in the
memory one level down.  Level-1 (leaf) tables are unconstrained; their
present entries point at mapped data frames. -/
def Leveled (mem : Mem) (lvl : Nat → Nat) : Prop :=
  ∀ a i c fl, (mem a).isSome → 2 ≤ lvl a →
    memAt mem a i = Entry.present c fl → (mem c).isSome ∧ lvl c = lvl a - 1

theorem memLe_refl (m : Mem) : MemLe m m :=
  ⟨fun _ h => h, fun _ _ _ => rfl⟩

theorem memLe_trans {m₁ m₂ m₃ : Mem} (h1 : MemLe m₁ m₂) (h2 : MemLe m₂ m₃) :
    MemLe m₁ m₃ := by
  refine ⟨fun a h => h2.1 a (h1.1 a h), fun a i hne => ?_⟩
  rw [h2.2 a i (by rw [h1.2 a i hne]; exact hne), h1.2 a i hne]

theorem memAt_installChild_hit (mem : Mem) (tbl i f : Nat) :
    memAt (installChild mem tbl i f) tbl i = Entry.present f TABLE_FLAGS := by
  simp [memAt, tableOf, installChild, updateTable]

theorem memAt_installChild_miss (mem : Mem) (tbl i f j : Nat) (hj : j ≠ i) :
    memAt (installChild mem tbl i f) tbl j = memAt mem tbl j := by
  simp [memAt, tableOf, installChild, updateTable, hj]

theorem memAt_installChild_fresh (mem : Mem) (tbl i f j : Nat) (hne : f ≠ tbl) :
    memAt (installChild mem tbl i f) f j = Entry.notPresent := by
  simp [memAt, tableOf, installChild, hne, emptyTable]

theorem memAt_installChild_other (mem : Mem) (tbl i f x j : Nat)
    (hx1 : x ≠ tbl) (hx2 : x ≠ f) :
    memAt (installChild mem tbl i f) x j = memAt mem x j := by
  simp [memAt, tableOf, installChild, hx1, hx2]

theorem installChild_isSome_iff (mem : Mem) (tbl i f x : Nat) :
    ((installChild mem tbl i f) x).isSome ↔
      x = tbl ∨ x = f ∨ (mem x).isSome := by
  unfold installChild
  by_cases h1 : x = tbl
  · simp [h1]
  · by_cases h2 : x = f
    · subst h2
      simp [h1]
    · simp [h1, h2]

theorem memAt_setEntry_hit (mem : Mem) (tbl i : Nat) (e : Entry) :
    memAt (setEntry mem tbl i e) tbl i = e := by
  simp [memAt, tableOf, setEntry, updateTable]

theorem memAt_setEntry_miss (mem : Mem) (tbl i j : Nat) (e : Entry) (hj : j ≠ i) :
    memAt (setEntry mem tbl i e) tbl j = memAt mem tbl j := by
  simp [memAt, tableOf, setEntry, updateTable, hj]

theorem memAt_setEntry_other (mem : Mem) (tbl i x j : Nat) (e : Entry)
    (hx : x ≠ tbl) :
    memAt (setEntry mem tbl i e) x j = memAt mem x j := by
  simp [memAt, tableOf, setEntry, hx]

theorem setEntry_isSome_iff (mem : Mem) (tbl i : Nat) (e : Entry) (x : Nat) :
    ((setEntry mem tbl i e) x).isSome ↔ x = tbl ∨ (mem x).isSome := by
  unfold setEntry
  by_cases h1 : x = tbl
  · simp [h1]
  · simp [h1]

theorem memAt_none {mem : Mem} {a : Nat} (h : mem a = none) (i : Nat) :
    memAt mem a i = Entry.notPresent := by
  simp [memAt, tableOf, h, emptyTable]

theorem existingPath_zero {m : Mem} {t : Nat}
    (h : ∀ j, memAt m t j = Entry.notPresent) (l : List Nat) :
    existingPath m t l = 0 := by
  cases l with
  | nil => rfl
  | cons i is => simp [existingPath, h i]

theorem walkRO_mono {m m' : Mem} (hle : MemLe m m') {tbl : Nat} {l : List Nat}
    {t : Nat} (h : walkRO m tbl l = some t) : walkRO m' tbl l = some t := by
  induction l generalizing tbl with
  | nil => exact h
  | cons i is ih =>
    rw [walkRO] at h
    cases hE : memAt m tbl i with
    | present a fl =>
      rw [hE] at h
      have hE' : memAt m' tbl i = Entry.present a fl := by
        rw [hle.2 tbl i (by rw [hE]; exact fun hc => Entry.noConfusion hc), hE]
      rw [walkRO, hE']
      exact ih h
    | notPresent =>
      rw [hE] at h
      exact absurd h (by simp)

theorem leafMapped_eq_of_walkRO {mem : Mem} {root vp t : Nat}
    (hW : walkRO mem root (tableIndices vp) = some t) :
    leafMapped mem root vp = isPresent (memAt mem t (leafIndex vp)) := by
  unfold leafMapped
  rw [hW]

theorem leafMapped_mono {m m' : Mem} (hle : MemLe m m') {root vp : Nat}
    (h : leafMapped m root vp = true) : leafMapped m' root vp = true := by
  cases hW : walkRO m root (tableIndices vp) with
  | none =>
    rw [leafMapped, hW] at h
    simp at h
  | some t =>
    rw [leafMapped_eq_of_walkRO hW] at h
    rw [leafMapped_eq_of_walkRO (walkRO_mono hle hW)]
    cases hE : memAt m t (leafIndex vp) with
    | notPresent => rw [hE] at h; simp [isPresent] at h
    | present c fl =>
      rw [hle.2 t _ (by rw [hE]; exact fun hc => Entry.noConfusion hc), hE]
      rfl

theorem walkCreate_spec (idxs : List Nat) :
    ∀ (mem : Mem) (lvl : Nat → Nat) (fs : List Nat) (tbl : Nat),
    Leveled mem lvl → (mem tbl).isSome → lvl tbl = idxs.length + 1 →
    fs.Nodup → (∀ f ∈ fs, mem f = none) →
    ∀ r memR fsR, walkCreate mem fs tbl idxs = (r, memR, fsR) →
      MemLe mem memR ∧
      (∃ k, fsR = fs.drop k ∧
        ∀ a, (memR a).isSome → (mem a).isSome ∨ a ∈ fs.take k) ∧
      (r = .error .frameAllocationFailed ↔
        fs.length + existingPath mem tbl idxs < idxs.length) ∧
      (∀ e, r = .error e → e = .frameAllocationFailed) ∧
      (∀ t, r = .ok t →
        (memR t).isSome ∧
        walkRO memR tbl idxs = some t ∧
        (existingPath mem tbl idxs = idxs.length →
          memR = mem ∧ fsR = fs ∧ walkRO mem tbl idxs = some t) ∧
        (existingPath mem tbl idxs < idxs.length →
          ∀ j, memAt memR t j = Entry.notPresent)) ∧
      (∃ lvl3, (∀ a, (mem a).isSome → lvl3 a = lvl a) ∧ Leveled memR lvl3 ∧
        (∀ t, r = .ok t → lvl3 t = 1)) := by
  induction idxs with
  | nil =>
    intro mem lvl fs tbl hLev htbl hlvl hnd hfresh r memR fsR heq
    have heq2 : ((Except.ok tbl : Except MapError Nat), mem, fs) = (r, memR, fsR) := heq
    injection heq2 with h1 h23
    injection h23 with h2 h3
    subst h1; subst h2; subst h3
    refine ⟨memLe_refl mem, ⟨0, by simp, fun a ha => Or.inl ha⟩, ?_, ?_, ?_, ?_⟩
    · constructor
      · intro h; exact absurd h (by simp)
      · intro h
        simp [existingPath] at h
    · intro e h; exact absurd h (by simp)
    · intro t ht
      have htt : tbl = t := by injection ht
      subst htt
      refine ⟨htbl, rfl, fun _ => ⟨rfl, rfl, rfl⟩, fun hlt => ?_⟩
      simp [existingPath] at hlt
    · exact ⟨lvl, fun _ _ => rfl, hLev, fun t ht => by
        have htt : tbl = t := by injection ht
        subst htt
        simp [hlvl]⟩
  | cons i is ih =>
    intro mem lvl fs tbl hLev htbl hlvl hnd hfresh r memR fsR heq
    rw [List.length_cons] at hlvl
    simp only [walkCreate] at heq
    cases hE : memAt mem tbl i with
    | present a fl =>
      rw [hE] at heq
      obtain ⟨haSome, halvl⟩ :=
        hLev tbl i a fl htbl (by rw [hlvl]; omega) hE
      have halvl' : lvl a = is.length + 1 := by rw [halvl, hlvl]; omega
      obtain ⟨hle, hdom, hiff, herr, hok, hlvl3⟩ :=
        ih mem lvl fs a hLev haSome halvl' hnd hfresh r memR fsR heq
      have hEP : existingPath mem tbl (i :: is) = existingPath mem a is + 1 := by
        simp [existingPath, hE]
      refine ⟨hle, hdom, ?_, herr, ?_, hlvl3⟩
      · rw [hEP]
        constructor
        · intro h
          have h2 := hiff.mp h
          simp only [List.length_cons]
          omega
        · intro h
          apply hiff.mpr
          simp only [List.length_cons] at h
          omega
      · intro t ht
        obtain ⟨hSome', hRO', hfull, hpart⟩ := hok t ht
        refine ⟨hSome', ?_, ?_, ?_⟩
        · have hE' : memAt memR tbl i = Entry.present a fl := by
            rw [hle.2 tbl i (by rw [hE]; exact fun hc => Entry.noConfusion hc), hE]
          rw [walkRO, hE']
          exact hRO'
        · intro hfull'
          rw [hEP] at hfull'
          simp only [List.length_cons] at hfull'
          obtain ⟨hm, hf, hro⟩ := hfull (by omega)
          refine ⟨hm, hf, ?_⟩
          rw [walkRO, hE]
          exact hro
        · intro hlt
          rw [hEP] at hlt
          simp only [List.length_cons] at hlt
          exact hpart (by omega)
    | notPresent =>
      rw [hE] at heq
      have hEP : existingPath mem tbl (i :: is) = 0 := by
        simp [existingPath, hE]
      cases fs with
      | nil =>
        have heq2 : ((Except.error MapError.frameAllocationFailed :
            Except MapError Nat), mem, ([] : List Nat)) = (r, memR, fsR) := heq
        injection heq2 with h1 h23
        injection h23 with h2 h3
        subst h1; subst h2; subst h3
        refine ⟨memLe_refl mem, ⟨0, by simp, fun a ha => Or.inl ha⟩, ?_, ?_, ?_, ?_⟩
        · rw [hEP]
          constructor
          · intro _
            simp only [List.length_nil, List.length_cons]
            omega
          · intro _; rfl
        · intro e h
          have he : MapError.frameAllocationFailed = e := by injection h
          exact he.symm
        · intro t ht; exact absurd ht (by simp)
        · exact ⟨lvl, fun _ _ => rfl, hLev, fun t ht => absurd ht (by simp)⟩
      | cons f ftail =>
        have hfF : mem f = none := hfresh f (List.mem_cons_self _ _)
        have hfne : f ≠ tbl := by
          intro hc
          rw [hc] at hfF
          rw [hfF] at htbl
          simp at htbl
        set mem2 := installChild mem tbl i f with hmem2
        set lvl2 := (fun x => if x = f then is.length + 1 else lvl x) with hlvl2def
        have hm2f : (mem2 f).isSome :=
          (installChild_isSome_iff mem tbl i f f).mpr (Or.inr (Or.inl rfl))
        have hm2some : ∀ x, (mem x).isSome → (mem2 x).isSome := fun x hx =>
          (installChild_isSome_iff mem tbl i f x).mpr (Or.inr (Or.inr hx))
        have hm2none : ∀ g, g ≠ tbl → g ≠ f → mem g = none → mem2 g = none := by
          intro g h1 h2 h3
          rw [hmem2]
          unfold installChild
          simp [h1, h2, h3]
        have hle12 : MemLe mem mem2 := by
          refine ⟨hm2some, ?_⟩
          intro x j hne
          by_cases hx1 : x = tbl
          · rw [hx1] at hne ⊢
            by_cases hj : j = i
            · rw [hj] at hne; exact absurd hE hne
            · exact memAt_installChild_miss mem tbl i f j hj
          · by_cases hx2 : x = f
            · rw [hx2] at hne; exact absurd (memAt_none hfF j) hne
            · exact memAt_installChild_other mem tbl i f x j hx1 hx2
        have htblnef : tbl ≠ f := fun hc => hfne hc.symm
        have hLev2 : Leveled mem2 lvl2 := by
          intro a' i' c fl' hsome2 hge2 hE2
          by_cases ha'f : a' = f
          · rw [ha'f] at hE2
            rw [memAt_installChild_fresh mem tbl i f i' hfne] at hE2
            exact absurd hE2 (by simp)
          · by_cases ha't : a' = tbl
            · rw [ha't] at hE2 hge2 ⊢
              by_cases hj : i' = i
              · rw [hj] at hE2
                rw [memAt_installChild_hit] at hE2
                have hcf : f = c := by injection hE2
                subst hcf
                refine ⟨hm2f, ?_⟩
                have e1 : lvl2 f = is.length + 1 := by rw [hlvl2def]; simp
                have e2 : lvl2 tbl = lvl tbl := by rw [hlvl2def]; simp [htblnef]
                rw [e1, e2, hlvl]
                omega
              · rw [memAt_installChild_miss mem tbl i f i' hj] at hE2
                obtain ⟨hcsome, hclvl⟩ :=
                  hLev tbl i' c fl' htbl (by rw [hlvl]; omega) hE2
                have hcf : c ≠ f := by
                  intro hc
                  rw [hc, hfF] at hcsome
                  simp at hcsome
                refine ⟨hm2some c hcsome, ?_⟩
                have e1 : lvl2 c = lvl c := by rw [hlvl2def]; simp [hcf]
                have e2 : lvl2 tbl = lvl tbl := by rw [hlvl2def]; simp [htblnef]
                rw [e1, e2]
                exact hclvl
            · rw [memAt_installChild_other mem tbl i f a' i' ha't ha'f] at hE2
              have ha'some : (mem a').isSome := by
                rcases (installChild_isSome_iff mem tbl i f a').mp hsome2 with
                  h | h | h
                · exact absurd h ha't
                · exact absurd h ha'f
                · exact h
              have ea' : lvl2 a' = lvl a' := by rw [hlvl2def]; simp [ha'f]
              have hge : 2 ≤ lvl a' := by rw [← ea']; exact hge2
              obtain ⟨hcsome, hclvl⟩ := hLev a' i' c fl' ha'some hge hE2
              have hcf : c ≠ f := by
                intro hc
                rw [hc, hfF] at hcsome
                simp at hcsome
              refine ⟨hm2some c hcsome, ?_⟩
              have e1 : lvl2 c = lvl c := by rw [hlvl2def]; simp [hcf]
              rw [e1, ea']
              exact hclvl
        have hnd' : ftail.Nodup := (List.nodup_cons.mp hnd).2
        have hfme : f ∉ ftail := (List.nodup_cons.mp hnd).1
        have hfresh2 : ∀ g ∈ ftail, mem2 g = none := by
          intro g hg
          have hgmem : mem g = none := hfresh g (List.mem_cons_of_mem _ hg)
          have hgt : g ≠ tbl := by
            intro hc
            rw [hc] at hgmem
            rw [hgmem] at htbl
            simp at htbl
          have hgf : g ≠ f := fun hc => hfme (hc ▸ hg)
          exact hm2none g hgt hgf hgmem
        have hlvl2f : lvl2 f = is.length + 1 := by
          rw [hlvl2def]
          simp
        have heq2 : walkCreate mem2 ftail f is = (r, memR, fsR) := heq
        obtain ⟨hleI, ⟨k, hkdrop, hkdom⟩, hiffI, herrI, hokI,
            ⟨lvl3, hl3agree, hLev3, hl3ok⟩⟩ :=
          ih mem2 lvl2 ftail f hLev2 hm2f hlvl2f hnd' hfresh2 r memR fsR heq2
        have hEP2 : existingPath mem2 f is = 0 :=
          existingPath_zero (fun j => memAt_installChild_fresh mem tbl i f j hfne) is
        rw [hEP2] at hiffI
        refine ⟨memLe_trans hle12 hleI, ?_, ?_, herrI, ?_, ?_⟩
        · refine ⟨k + 1, by simp [hkdrop], ?_⟩
          intro a ha
          rcases hkdom a ha with h2 | h2
          · rcases (installChild_isSome_iff mem tbl i f a).mp h2 with h3 | h3 | h3
            · subst h3; exact Or.inl htbl
            · subst h3
              right
              rw [List.take_succ_cons]
              exact List.mem_cons_self _ _
            · exact Or.inl h3
          · right
            rw [List.take_succ_cons]
            exact List.mem_cons_of_mem _ h2
        · rw [hEP]
          constructor
          · intro h
            have h2 := hiffI.mp h
            simp only [List.length_cons]
            omega
          · intro h
            apply hiffI.mpr
            simp only [List.length_cons] at h
            omega
        · intro t ht
          obtain ⟨hSomeT, hROT, hfullT, hpartT⟩ := hokI t ht
          refine ⟨hSomeT, ?_, ?_, ?_⟩
          · have hE2i : memAt mem2 tbl i = Entry.present f TABLE_FLAGS :=
              memAt_installChild_hit mem tbl i f
            have hE3 : memAt memR tbl i = Entry.present f TABLE_FLAGS := by
              rw [hleI.2 tbl i (by
                rw [hE2i]; exact fun hc => Entry.noConfusion hc), hE2i]
            rw [walkRO, hE3]
            exact hROT
          · intro hfull'
            rw [hEP] at hfull'
            simp only [List.length_cons] at hfull'
            omega
          · intro _
            by_cases hlen : is.length = 0
            · obtain ⟨hmR, hfR, hroR⟩ := hfullT (by rw [hEP2, hlen])
              have hisnil : is = [] := List.length_eq_zero.mp hlen
              have htf : t = f := by
                rw [hisnil] at hroR
                have hsf : (some f : Option Nat) = some t := hroR
                exact (Option.some.inj hsf).symm
              intro j
              rw [htf, hmR]
              exact memAt_installChild_fresh mem tbl i f j hfne
            · exact hpartT (by rw [hEP2]; omega)
        · refine ⟨lvl3, ?_, hLev3, hl3ok⟩
          intro a ha
          have ha2 : (mem2 a).isSome := hm2some a ha
          have haf : a ≠ f := by
            intro hc
            rw [hc, hfF] at ha
            simp at ha
          have e2 : lvl2 a = lvl a := by rw [hlvl2def]; simp [haf]
          rw [hl3agree a ha2, e2]

theorem existingPath_le_length (mem : Mem) (tbl : Nat) (l : List Nat) :
    existingPath mem tbl l ≤ l.length := by
  induction l generalizing tbl with
  | nil => simp [existingPath]
  | cons i is ih =>
    cases hE : memAt mem tbl i with
    | present a fl =>
      simp only [existingPath, hE, List.length_cons]
      exact Nat.succ_le_succ (ih a)
    | notPresent =>
      simp [existingPath, hE]

theorem existingPath_eq_of_walkRO {mem : Mem} {tbl : Nat} {l : List Nat}
    {t : Nat} (h : walkRO mem tbl l = some t) :
    existingPath mem tbl l = l.length := by
  induction l generalizing tbl with
  | nil => rfl
  | cons i is ih =>
    rw [walkRO] at h
    cases hE : memAt mem tbl i with
    | present a fl =>
      rw [hE] at h
      simp [existingPath, hE, ih h]
    | notPresent =>
      rw [hE] at h
      exact absurd h (by simp)

theorem leafMapped_true_elim {mem : Mem} {root vp : Nat}
    (h : leafMapped mem root vp = true) :
    ∃ t, walkRO mem root (tableIndices vp) = some t ∧
      isPresent (memAt mem t (leafIndex vp)) = true := by
  cases hW : walkRO mem root (tableIndices vp) with
  | none =>
    rw [leafMapped, hW] at h
    simp at h
  | some t =>
    rw [leafMapped_eq_of_walkRO hW] at h
    exact ⟨t, rfl, h⟩

/-- C5: `map_page` raises-iff.  Under the page-table well-formedness
witnessed by a level assignment and a fresh frame source,
`map_page(mapper, vp, frame, flags, frame_source)` returns
`MapError::FrameAllocationFailed` exactly when the frame source holds fewer
frames than the number of intermediate tables still to be created for
`vp`'s path (exhaustion mid-walk); it returns `MapError::PageAlreadyMapped`
exactly when the leaf page-table entry for `vp` is already present (so an
existing mapping is never silently overwritten); and otherwise it returns
`Ok`.  All failures are values of the result, not faults. -/
theorem mapPage_error_iff (root : Nat) (mem : Mem) (lvl : Nat → Nat)
    (fs : List Nat) (vp frame flags : Nat)
    (hLev : Leveled mem lvl) (hroot : (mem root).isSome) (hlvl : lvl root = 4)
    (hnd : fs.Nodup) (hfresh : ∀ f ∈ fs, mem f = none) :
    ((mapPage root mem fs vp frame flags).1 = .error .frameAllocationFailed ↔
      fs.length + existingPath mem root (tableIndices vp) < 3) ∧
    ((mapPage root mem fs vp frame flags).1 = .error .pageAlreadyMapped ↔
      leafMapped mem root vp = true) ∧
    (¬ (fs.length + existingPath mem root (tableIndices vp) < 3) →
      leafMapped mem root vp = false →
      (mapPage root mem fs vp frame flags).1 = .ok ()) := by
  have hlen : (tableIndices vp).length = 3 := rfl
  rcases hW : walkCreate mem fs root (tableIndices vp) with ⟨r, memW, fsW⟩
  obtain ⟨hle, hdom, hiff, herr, hok, hlvl3⟩ :=
    walkCreate_spec (tableIndices vp) mem lvl fs root hLev hroot
      (by rw [hlvl]; rfl) hnd hfresh r memW fsW hW
  rw [hlen] at hiff
  cases r with
  | error e =>
    have he : e = .frameAllocationFailed := herr e rfl
    subst he
    have hFAF : fs.length + existingPath mem root (tableIndices vp) < 3 :=
      hiff.mp rfl
    have hmp : (mapPage root mem fs vp frame flags).1
        = .error .frameAllocationFailed := by
      rw [mapPage, hW]
    refine ⟨⟨fun _ => hFAF, fun _ => hmp⟩, ⟨?_, ?_⟩, ?_⟩
    · intro hPAM
      rw [hmp] at hPAM
      simp at hPAM
    · intro hLM
      exfalso
      obtain ⟨t, hRO, _⟩ := leafMapped_true_elim hLM
      have := existingPath_eq_of_walkRO hRO
      rw [hlen] at this
      omega
    · intro hn _
      exact absurd hFAF hn
  | ok t =>
    obtain ⟨hSomeT, hROT, hfull, hpart⟩ := hok t rfl
    have hmp : mapPage root mem fs vp frame flags =
        (match memAt memW t (leafIndex vp) with
          | Entry.present _ _ => (.error .pageAlreadyMapped, memW, fsW)
          | Entry.notPresent =>
            (.ok (), setEntry memW t (leafIndex vp) (.present frame flags),
              fsW)) := by
      rw [mapPage, hW]
    have hnFAF : ¬ (fs.length + existingPath mem root (tableIndices vp) < 3) := by
      intro hc
      have := hiff.mpr hc
      simp at this
    cases hE : memAt memW t (leafIndex vp) with
    | present c fl =>
      have hmp1 : (mapPage root mem fs vp frame flags).1
          = .error .pageAlreadyMapped := by
        rw [hmp, hE]
      have hfull3 : existingPath mem root (tableIndices vp) = 3 := by
        by_contra hne
        have hlt : existingPath mem root (tableIndices vp) < 3 := by
          have := existingPath_le_length mem root (tableIndices vp)
          rw [hlen] at this
          omega
        have hempty := hpart (by rw [hlen]; exact hlt)
        rw [hempty (leafIndex vp)] at hE
        exact Entry.noConfusion hE
      obtain ⟨hmW, hfW, hRO0⟩ := hfull (by rw [hlen]; exact hfull3)
      have hE0 : memAt mem t (leafIndex vp) = Entry.present c fl := by
        rw [← hmW]; exact hE
      have hLM : leafMapped mem root vp = true := by
        rw [leafMapped_eq_of_walkRO hRO0, hE0]
        rfl
      refine ⟨⟨?_, ?_⟩, ⟨fun _ => hLM, fun _ => hmp1⟩, ?_⟩
      · intro h
        rw [hmp1] at h
        simp at h
      · intro hc
        exact absurd hc hnFAF
      · intro _ hLMfalse
        rw [hLM] at hLMfalse
        simp at hLMfalse
    | notPresent =>
      have hmp1 : (mapPage root mem fs vp frame flags).1 = .ok () := by
        rw [hmp, hE]
      have hLMf : leafMapped mem root vp = false := by
        by_cases hfull3 : existingPath mem root (tableIndices vp) = 3
        · obtain ⟨hmW, hfW, hRO0⟩ := hfull (by rw [hlen]; exact hfull3)
          rw [leafMapped_eq_of_walkRO hRO0]
          have hE0 : memAt mem t (leafIndex vp) = Entry.notPresent := by
            rw [← hmW]; exact hE
          rw [hE0]
          rfl
        · have hROnone : walkRO mem root (tableIndices vp) = none := by
            cases hRO : walkRO mem root (tableIndices vp) with
            | none => rfl
            | some u =>
              have := existingPath_eq_of_walkRO hRO
              rw [hlen] at this
              exact absurd this hfull3
          rw [leafMapped, hROnone]
      refine ⟨⟨?_, ?_⟩, ⟨?_, ?_⟩, fun _ _ => hmp1⟩
      · intro h
        rw [hmp1] at h
        simp at h
      · intro hc
        exact absurd hc hnFAF
      · intro h
        rw [hmp1] at h
        simp at h
      · intro h
        rw [h] at hLMf
        simp at hLMf

/-- The boot table memory used by the concrete witnesses: only the root
table (at frame 0), empty. -/
def mem0 : Mem := fun a => if a = 0 then some emptyTable else none

/-- The level assignment witnessing well-formedness of `mem0`. -/
def lvl0 : Nat → Nat := fun a => if a = 0 then 4 else 0

theorem mem0_leveled : Leveled mem0 lvl0 := by
  intro a i c fl hsome hge hE
  by_cases ha : a = 0
  · rw [ha] at hE
    simp [memAt, tableOf, mem0, emptyTable] at hE
  · exfalso
    simp [mem0, ha] at hsome

/-- Witness for C5: mapping a page into the fresh root-only table memory
with three fresh frames available; the PageAlreadyMapped iff
characterization is obtained at this concrete input. -/
theorem mapPage_error_iff_witness :
    Leveled mem0 lvl0 ∧ [1, 2, 3].Nodup ∧
    ((mapPage 0 mem0 [1, 2, 3] 4096 7 3).1 = .error .pageAlreadyMapped ↔
      leafMapped mem0 0 4096 = true) ∧
    (mapPage 0 mem0 [1, 2, 3] 4096 7 3).1 = .ok () :=
  ⟨mem0_leveled, by decide,
    (mapPage_error_iff 0 mem0 lvl0 [1, 2, 3] 4096 7 3 mem0_leveled rfl rfl
      (by decide) (by intro f hf; fin_cases hf <;> rfl)).2.1,
    (mapPage_error_iff 0 mem0 lvl0 [1, 2, 3] 4096 7 3 mem0_leveled rfl rfl
      (by decide) (by intro f hf; fin_cases hf <;> rfl)).2.2
      (by decide) (by decide)⟩

theorem memLe_setEntry (mem : Mem) (tbl i : Nat) (e : Entry)
    (h : memAt mem tbl i = Entry.notPresent) :
    MemLe mem (setEntry mem tbl i e) := by
  constructor
  · intro a ha
    exact (setEntry_isSome_iff mem tbl i e a).mpr (Or.inr ha)
  · intro a j hne
    by_cases hat : a = tbl
    · rw [hat] at hne ⊢
      by_cases hj : j = i
      · rw [hj] at hne
        exact absurd h hne
      · exact memAt_setEntry_miss mem tbl i j e hj
    · exact memAt_setEntry_other mem tbl i a j e hat

theorem leveled_setEntry (mem : Mem) (lvl : Nat → Nat) (tbl i : Nat)
    (e : Entry) (hLev : Leveled mem lvl) (h1 : lvl tbl = 1) :
    Leveled (setEntry mem tbl i e) lvl := by
  intro a j c fl hsome hge hE2
  by_cases hat : a = tbl
  · rw [hat, h1] at hge
    omega
  · rw [memAt_setEntry_other mem tbl i a j e hat] at hE2
    have hasome : (mem a).isSome := by
      rcases (setEntry_isSome_iff mem tbl i e a).mp hsome with h | h
      · exact absurd h hat
      · exact h
    obtain ⟨hcs, hcl⟩ := hLev a j c fl hasome hge hE2
    exact ⟨(setEntry_isSome_iff mem tbl i e c).mpr (Or.inr hcs), hcl⟩

/-- In a `Nodup` list, an element of `drop k` is not in `take k`. -/
theorem not_mem_take_of_mem_drop {l : List Nat} {k g : Nat}
    (hnd : l.Nodup) (hg : g ∈ l.drop k) : g ∉ l.take k := by
  intro hg2
  have hsplit : l.take k ++ l.drop k = l := List.take_append_drop k l
  rw [← hsplit] at hnd
  exact (List.nodup_append.mp hnd).2.2 hg2 hg

/-- State facts carried from one `map_page` call to the next during heap
initialization: the table memory extends, the mapped leaf is recorded, the
root stays present, the remaining frames stay fresh, and well-formedness is
preserved. -/
theorem mapPage_preserve (root : Nat) (mem : Mem) (lvl : Nat → Nat)
    (fs : List Nat) (vp frame flags : Nat)
    (hLev : Leveled mem lvl) (hroot : (mem root).isSome) (hlvl : lvl root = 4)
    (hnd : fs.Nodup) (hfresh : ∀ f ∈ fs, mem f = none) :
    ∀ r memR fsR, mapPage root mem fs vp frame flags = (r, memR, fsR) →
      MemLe mem memR ∧
      (r = .ok () → leafMapped memR root vp = true) ∧
      (memR root).isSome ∧
      fsR.Nodup ∧ (∀ g ∈ fsR, memR g = none) ∧
      (∃ lvl2, lvl2 root = 4 ∧ Leveled memR lvl2) := by
  intro r memR fsR heq
  rcases hW : walkCreate mem fs root (tableIndices vp) with ⟨rw0, memW, fsW⟩
  obtain ⟨hle, ⟨k, hkdrop, hkdom⟩, hiff, herr, hok, ⟨lvl3, hagree, hLev3, hl3ok⟩⟩ :=
    walkCreate_spec (tableIndices vp) mem lvl fs root hLev hroot
      (by rw [hlvl]; rfl) hnd hfresh rw0 memW fsW hW
  have hndW : fsW.Nodup := by
    rw [hkdrop]
    exact hnd.sublist (List.drop_sublist _ _)
  have hfreshW : ∀ g ∈ fsW, memW g = none := by
    intro g hg
    rw [hkdrop] at hg
    by_cases hs : (memW g).isSome
    · rcases hkdom g hs with h2 | h2
      · have := hfresh g (List.mem_of_mem_drop hg)
        rw [this] at h2
        simp at h2
      · exact absurd h2 (not_mem_take_of_mem_drop hnd hg)
    · exact Option.not_isSome_iff_eq_none.mp hs
  have hlvl3root : lvl3 root = 4 := by
    rw [hagree root hroot, hlvl]
  rw [mapPage, hW] at heq
  cases rw0 with
  | error e =>
    have heq2 : ((Except.error e : Except MapError Unit), memW, fsW)
        = (r, memR, fsR) := heq
    injection heq2 with h1 h23
    injection h23 with h2 h3
    subst h1; subst h2; subst h3
    refine ⟨hle, fun h => absurd h (by simp), hle.1 root hroot, hndW, hfreshW,
      ⟨lvl3, hlvl3root, hLev3⟩⟩
  | ok t =>
    obtain ⟨hSomeT, hROT, _, _⟩ := hok t rfl
    have hlt1 : lvl3 t = 1 := hl3ok t rfl
    have heq3 : (match memAt memW t (leafIndex vp) with
        | Entry.present _ _ =>
          ((Except.error MapError.pageAlreadyMapped : Except MapError Unit),
            memW, fsW)
        | Entry.notPresent =>
          (Except.ok (),
            setEntry memW t (leafIndex vp) (Entry.present frame flags), fsW))
        = (r, memR, fsR) := heq
    cases hE : memAt memW t (leafIndex vp) with
    | present c fl =>
      rw [hE] at heq3
      have heq2 : ((Except.error MapError.pageAlreadyMapped :
          Except MapError Unit), memW, fsW) = (r, memR, fsR) := heq3
      injection heq2 with h1 h23
      injection h23 with h2 h3
      subst h1; subst h2; subst h3
      refine ⟨hle, fun h => absurd h (by simp), hle.1 root hroot, hndW, hfreshW,
        ⟨lvl3, hlvl3root, hLev3⟩⟩
    | notPresent =>
      rw [hE] at heq3
      have heq2 : ((Except.ok () : Except MapError Unit),
          setEntry memW t (leafIndex vp) (Entry.present frame flags), fsW)
          = (r, memR, fsR) := heq3
      injection heq2 with h1 h23
      injection h23 with h2 h3
      subst h1; subst h2; subst h3
      have hleS : MemLe memW (setEntry memW t (leafIndex vp)
          (Entry.present frame flags)) := memLe_setEntry memW t (leafIndex vp) _ hE
      refine ⟨memLe_trans hle hleS, ?_, ?_, hndW, ?_, ?_⟩
      · intro _
        rw [leafMapped_eq_of_walkRO (walkRO_mono hleS hROT),
          memAt_setEntry_hit]
        rfl
      · exact hleS.1 root (hle.1 root hroot)
      · intro g hg
        have hgW : memW g = none := hfreshW g hg
        have hgt : g ≠ t := by
          intro hc
          rw [hc] at hgW
          rw [hgW] at hSomeT
          simp at hSomeT
        by_cases hs : ((setEntry memW t (leafIndex vp)
            (Entry.present frame flags)) g).isSome
        · rcases (setEntry_isSome_iff memW t (leafIndex vp) _ g).mp hs with h | h
          · exact absurd h hgt
          · rw [hgW] at h
            simp at h
        · exact Option.not_isSome_iff_eq_none.mp hs
      · exact ⟨lvl3, hlvl3root,
          leveled_setEntry memW lvl3 t (leafIndex vp) _ hLev3 hlt1⟩

/-! ### Heap initialization

Modelled from the spec: `big_iron::allocator::init_heap` (called at
`src/main.rs:28`).  The spec (§4.3): map every virtual page spanning the
configured heap region, delegating to `map_page` once per page (drawing the
page's backing frame from the frame source first), stopping at and
propagating the first `MapError` (partial mappings are left in place), then
initialize the free list to exactly one free block spanning the whole
region. -/

/-- The virtual pages spanning the heap region
`[heapStart, heapStart + heapSize)`. -/
def heapPages (heapStart heapSize : Nat) : List Nat :=
  if heapSize = 0 then []
  else
    (List.range
        ((heapStart + heapSize - 1) / PAGE_SIZE - heapStart / PAGE_SIZE + 1)).map
      (fun k => PAGE_SIZE * (heapStart / PAGE_SIZE + k))

/-- Flags used for heap pages: present and writable. -/
def HEAP_FLAGS : Nat := 3

/-- Map one heap page: draw its backing frame from the frame source (frame
exhaustion here is also reported as `FrameAllocationFailed`), then delegate
to `map_page`. -/
def mapOnePage (root : Nat) (mem : Mem) (fs : List Nat) (p : Nat) :
    Except MapError Unit × Mem × List Nat :=
  match fs with
  | [] => (.error .frameAllocationFailed, mem, fs)
  | f :: fs' => mapPage root mem fs' p f HEAP_FLAGS

def initHeapPages (root : Nat) (mem : Mem) (fs : List Nat) :
    List Nat → Except MapError Unit × Mem × List Nat
  | [] => (.ok (), mem, fs)
  | p :: rest =>
    match mapOnePage root mem fs p with
    | (.ok _, mem', fs') => initHeapPages root mem' fs' rest
    | (.error e, mem', fs') => (.error e, mem', fs')

/-- Modelled from the spec: `init_heap(mapper, frame_source)` maps every
page spanning the heap region and, on success, returns the initial
allocator state with exactly one free block spanning the whole region. -/
def init_heap (root : Nat) (mem : Mem) (fs : List Nat)
    (heapStart heapSize : Nat) : Except MapError HeapState × Mem × List Nat :=
  match initHeapPages root mem fs (heapPages heapStart heapSize) with
  | (.ok _, mem', fs') => (.ok ⟨[(heapStart, heapSize)]⟩, mem', fs')
  | (.error e, mem', fs') => (.error e, mem', fs')

theorem initHeapPages_spec (pages : List Nat) :
    ∀ (root : Nat) (mem : Mem) (lvl : Nat → Nat) (fs : List Nat),
    Leveled mem lvl → (mem root).isSome → lvl root = 4 →
    fs.Nodup → (∀ f ∈ fs, mem f = none) →
    ∀ r memR fsR, initHeapPages root mem fs pages = (r, memR, fsR) →
      MemLe mem memR ∧
      (r = .ok () → ∀ p ∈ pages, leafMapped memR root p = true) ∧
      (∀ e, r = .error e →
        ∃ pre p post memK fsK,
          pages = pre ++ p :: post ∧
          initHeapPages root mem fs pre = (.ok (), memK, fsK) ∧
          (mapOnePage root memK fsK p).1 = .error e ∧
          memR = (mapOnePage root memK fsK p).2.1 ∧
          ∀ q ∈ pre, leafMapped memR root q = true) := by
  induction pages with
  | nil =>
    intro root mem lvl fs hLev hroot hlvl hnd hfresh r memR fsR heq
    have heq2 : ((Except.ok () : Except MapError Unit), mem, fs)
        = (r, memR, fsR) := heq
    injection heq2 with h1 h23
    injection h23 with h2 h3
    subst h1; subst h2; subst h3
    exact ⟨memLe_refl mem, fun _ p hp => absurd hp (by simp),
      fun e he => absurd he (by simp)⟩
  | cons p rest ih =>
    intro root mem lvl fs hLev hroot hlvl hnd hfresh r memR fsR heq
    cases fs with
    | nil =>
      have heq2 : ((Except.error MapError.frameAllocationFailed :
          Except MapError Unit), mem, ([] : List Nat)) = (r, memR, fsR) := heq
      injection heq2 with h1 h23
      injection h23 with h2 h3
      subst h1; subst h2; subst h3
      refine ⟨memLe_refl mem, fun h => absurd h (by simp), ?_⟩
      intro e he
      have he2 : MapError.frameAllocationFailed = e := by injection he
      refine ⟨[], p, rest, mem, [], rfl, rfl, ?_, rfl, by simp⟩
      rw [← he2]
      rfl
    | cons f ftail =>
      rcases hmp : mapPage root mem ftail p f HEAP_FLAGS with ⟨rp, memP, fsP⟩
      have hone : mapOnePage root mem (f :: ftail) p = (rp, memP, fsP) := by
        rw [show mapOnePage root mem (f :: ftail) p
          = mapPage root mem ftail p f HEAP_FLAGS from rfl, hmp]
      have hfreshtail : ∀ g ∈ ftail, mem g = none := fun g hg =>
        hfresh g (List.mem_cons_of_mem _ hg)
      have hndtail : ftail.Nodup := (List.nodup_cons.mp hnd).2
      obtain ⟨hleP, hokP, hrootP, hndP, hfreshP, ⟨lvlP, hlvlP4, hLevP⟩⟩ :=
        mapPage_preserve root mem lvl ftail p f HEAP_FLAGS hLev hroot hlvl
          hndtail hfreshtail rp memP fsP hmp
      cases rp with
      | ok u =>
        cases u
        have heq2 : initHeapPages root memP fsP rest = (r, memR, fsR) := by
          rw [initHeapPages, hone] at heq
          exact heq
        obtain ⟨hleI, hokI, herrI⟩ :=
          ih root memP lvlP fsP hLevP hrootP hlvlP4 hndP hfreshP r memR fsR heq2
        refine ⟨memLe_trans hleP hleI, ?_, ?_⟩
        · intro hr q hq
          rcases List.mem_cons.mp hq with rfl | hq'
          · exact leafMapped_mono hleI (hokP rfl)
          · exact hokI hr q hq'
        · intro e he
          obtain ⟨pre, q, post, memK, fsK, hsplit, hinit, honeK, hmemR, hpremapped⟩ :=
            herrI e he
          refine ⟨p :: pre, q, post, memK, fsK, by rw [hsplit]; rfl, ?_,
            honeK, hmemR, ?_⟩
          · rw [initHeapPages, hone]
            exact hinit
          · intro q' hq'
            rcases List.mem_cons.mp hq' with rfl | hq''
            · exact leafMapped_mono hleI (hokP rfl)
            · exact hpremapped q' hq''
      | error e0 =>
        have heq2 : ((Except.error e0 : Except MapError Unit), memP, fsP)
            = (r, memR, fsR) := by
          rw [initHeapPages, hone] at heq
          exact heq
        injection heq2 with h1 h23
        injection h23 with h2 h3
        subst h1; subst h2; subst h3
        refine ⟨hleP, fun h => absurd h (by simp), ?_⟩
        intro e he
        have hee : e0 = e := by injection he
        subst hee
        refine ⟨[], p, rest, mem, f :: ftail, rfl, rfl, ?_, ?_, by simp⟩
        · rw [hone]
        · rw [hone]

/-- C6: `init_heap` postcondition.  Under page-table well-formedness and a
fresh frame source, `init_heap(mapper, frame_source)`: on success, every
virtual page spanning the heap region is mapped in the resulting page
tables and the free list holds exactly one free block spanning the whole
heap region; on failure, the first `MapError` encountered is propagated —
there exist an already-mapped prefix of the page list and a failing page at
which the run stopped, and the pages mapped before the failure remain
mapped in the returned state (partial mappings are not unmapped). -/
theorem init_heap_spec (root : Nat) (mem : Mem) (lvl : Nat → Nat)
    (fs : List Nat) (heapStart heapSize : Nat)
    (hLev : Leveled mem lvl) (hroot : (mem root).isSome) (hlvl : lvl root = 4)
    (hnd : fs.Nodup) (hfresh : ∀ f ∈ fs, mem f = none) :
    ∀ res memR fsR, init_heap root mem fs heapStart heapSize = (res, memR, fsR) →
      (∀ h, res = .ok h →
        h.free = [(heapStart, heapSize)] ∧
        ∀ p ∈ heapPages heapStart heapSize, leafMapped memR root p = true) ∧
      (∀ e, res = .error e →
        ∃ pre p post memK fsK,
          heapPages heapStart heapSize = pre ++ p :: post ∧
          initHeapPages root mem fs pre = (.ok (), memK, fsK) ∧
          (mapOnePage root memK fsK p).1 = .error e ∧
          memR = (mapOnePage root memK fsK p).2.1 ∧
          ∀ q ∈ pre, leafMapped memR root q = true) := by
  intro res memR fsR heq
  rcases hI : initHeapPages root mem fs (heapPages heapStart heapSize) with
    ⟨rI, memI, fsI⟩
  obtain ⟨hleI, hokI, herrI⟩ :=
    initHeapPages_spec (heapPages heapStart heapSize) root mem lvl fs hLev
      hroot hlvl hnd hfresh rI memI fsI hI
  rw [init_heap, hI] at heq
  cases rI with
  | ok u =>
    cases u
    have heq2 : ((Except.ok (⟨[(heapStart, heapSize)]⟩ : HeapState) :
        Except MapError HeapState), memI, fsI) = (res, memR, fsR) := heq
    injection heq2 with h1 h23
    injection h23 with h2 h3
    subst h1; subst h2; subst h3
    constructor
    · intro h hh
      have hh2 : (⟨[(heapStart, heapSize)]⟩ : HeapState) = h := by injection hh
      subst hh2
      exact ⟨rfl, hokI rfl⟩
    · intro e he
      exact absurd he (by simp)
  | error e0 =>
    have heq2 : ((Except.error e0 : Except MapError HeapState), memI, fsI)
        = (res, memR, fsR) := heq
    injection heq2 with h1 h23
    injection h23 with h2 h3
    subst h1; subst h2; subst h3
    constructor
    · intro h hh
      exact absurd hh (by simp)
    · intro e he
      have hee : e0 = e := by injection he
      subst hee
      exact herrI e0 rfl

/-- Witness for C6: initializing a one-page heap at `0x1000` from the
root-only table memory with four fresh frames succeeds and maps the heap
page. -/
theorem init_heap_spec_witness :
    Leveled mem0 lvl0 ∧ [10, 11, 12, 13].Nodup ∧
    leafMapped (init_heap 0 mem0 [10, 11, 12, 13] 4096 4096).2.1 0 4096 = true :=
  ⟨mem0_leveled, by decide,
    ((init_heap_spec 0 mem0 lvl0 [10, 11, 12, 13] 4096 4096 mem0_leveled rfl
          rfl (by decide) (by intro f hf; fin_cases hf <;> rfl)
          (init_heap 0 mem0 [10, 11, 12, 13] 4096 4096).1
          (init_heap 0 mem0 [10, 11, 12, 13] 4096 4096).2.1
          (init_heap 0 mem0 [10, 11, 12, 13] 4096 4096).2.2 rfl).1
        ⟨[(4096, 4096)]⟩ rfl).2 4096 (by decide)⟩

/-! ### Kernel entry point

Embedded from `src/main.rs`.  `kernel_main` (lines 20-57) prints a greeting,
initializes the mapper and the frame allocator from the boot info, calls
`allocator::init_heap(..).expect("heap initialization failed")`, exercises
the heap (`Box`, a 500-element `Vec`, an `Rc` clone/drop pair — external
`alloc`-crate clients of the allocator, abstracted to their diagnostic
lines), prints "It did not crash!" and calls `big_iron::hlt_loop()`.  On
panic the handler (lines 60-65) prints the panic info and calls
`big_iron::hlt_loop()`.  The `#[cfg(test)] test_main()` call is compiled
out in the normal build. -/

/-- One line written to the diagnostic text sink by `kernel_main` or the
panic handler. -/
inductive KernelEvent
  | helloWorld
  | heapValueLine
  | vecLine
  | rcCountIs (n : Nat)
  | itDidNotCrash
  | heapInitFailed (e : MapError)
deriving DecidableEq

/-- The terminal state of the kernel's control flow: either the permanent
halt loop, or returning control (which never happens). -/
inductive Terminal
  | hltLoop
  | returned
deriving DecidableEq

/-- Modelled from the spec: `big_iron::hlt_loop` (not in the repository
snapshot; called from `src/main.rs:56` and `src/main.rs:64`) enters a
permanent halt state in which no further instructions of the kernel's
normal control flow execute. -/
def hlt_loop : Terminal := .hltLoop

/-- The panic handler from `src/main.rs:60-65`: print the panic info to the
diagnostic sink, then halt forever. -/
def reportFailureAndHalt (e : MapError) (log : List KernelEvent) :
    List KernelEvent × Terminal :=
  (log ++ [KernelEvent.heapInitFailed e], hlt_loop)

/-- `kernel_main` from `src/main.rs:20-57`, as the list of diagnostic lines
it writes and the terminal state it reaches.  A failing
`init_heap(..).expect(..)` panics into the handler; on success the heap
clients run and the kernel prints its final line and halts. -/
def kernel_main (root : Nat) (mem : Mem) (regions : List MemoryRegion)
    (heapStart heapSize : Nat) : List KernelEvent × Terminal :=
  let log := [KernelEvent.helloWorld]
  match init_heap root mem (allFrames regions) heapStart heapSize with
  | (.error e, _, _) => reportFailureAndHalt e log
  | (.ok _, _, _) =>
    (log ++ [KernelEvent.heapValueLine, KernelEvent.vecLine,
      KernelEvent.rcCountIs 2, KernelEvent.rcCountIs 1,
      KernelEvent.itDidNotCrash], hlt_loop)

/-- C9: Halt on unrecoverable initialization failure.  Whenever
`init_heap` fails with a `MapError`, the kernel writes the failure report
as the final line of the diagnostic sink and reaches the permanent halt
state; no line of the normal control flow after the failure (in particular
the final "It did not crash!" line) is ever written, and control is never
returned. -/
theorem kernel_halts_on_failure (root : Nat) (mem : Mem)
    (regions : List MemoryRegion) (heapStart heapSize : Nat) (e : MapError)
    (hfail : (init_heap root mem (allFrames regions) heapStart heapSize).1
      = .error e) :
    kernel_main root mem regions heapStart heapSize
      = ([KernelEvent.helloWorld, KernelEvent.heapInitFailed e], hlt_loop) ∧
    KernelEvent.itDidNotCrash
      ∉ (kernel_main root mem regions heapStart heapSize).1 ∧
    (kernel_main root mem regions heapStart heapSize).2 ≠ Terminal.returned := by
  rcases hI : init_heap root mem (allFrames regions) heapStart heapSize with
    ⟨res, memR, fsR⟩
  rw [hI] at hfail
  have hres : res = .error e := hfail
  subst hres
  have hkm : kernel_main root mem regions heapStart heapSize
      = ([KernelEvent.helloWorld, KernelEvent.heapInitFailed e], hlt_loop) := by
    rw [kernel_main, hI]
    rfl
  refine ⟨hkm, ?_, ?_⟩
  · rw [hkm]
    simp
  · rw [hkm]
    simp [hlt_loop]

/-- Witness for C9: an empty boot memory map exhausts the frame source at
the first heap page, so `init_heap` fails and the kernel reports the
failure and halts. -/
theorem kernel_halts_on_failure_witness :
    (init_heap 0 mem0 (allFrames []) 4096 4096).1
      = .error .frameAllocationFailed ∧
    kernel_main 0 mem0 [] 4096 4096
      = ([KernelEvent.helloWorld,
          KernelEvent.heapInitFailed .frameAllocationFailed], hlt_loop) :=
  ⟨rfl, (kernel_halts_on_failure 0 mem0 [] 4096 4096 .frameAllocationFailed
    rfl).1⟩

/-- C10 (implicit): `kernel_main` never returns on any path.  Its terminal
state is the permanent halt loop both when initialization fails and when
it succeeds; on the success path the final diagnostic line
"It did not crash!" is printed and then `hlt_loop` is entered. -/
theorem kernel_never_returns (root : Nat) (mem : Mem)
    (regions : List MemoryRegion) (heapStart heapSize : Nat) :
    (kernel_main root mem regions heapStart heapSize).2 = hlt_loop ∧
    (∀ h memR fsR,
      init_heap root mem (allFrames regions) heapStart heapSize
        = (.ok h, memR, fsR) →
      kernel_main root mem regions heapStart heapSize
        = ([KernelEvent.helloWorld, KernelEvent.heapValueLine,
            KernelEvent.vecLine, KernelEvent.rcCountIs 2,
            KernelEvent.rcCountIs 1, KernelEvent.itDidNotCrash], hlt_loop)) := by
  constructor
  · rcases hI : init_heap root mem (allFrames regions) heapStart heapSize with
      ⟨res, memR, fsR⟩
    cases res with
    | error e =>
      simp [kernel_main, hI, reportFailureAndHalt]
    | ok h =>
      simp [kernel_main, hI]
  · intro h memR fsR hI
    rw [kernel_main, hI]
    rfl

/-- Witness for C10: a one-region boot map with enough usable frames lets
initialization succeed, and the kernel prints its final line and halts. -/
theorem kernel_never_returns_witness :
    init_heap 0 mem0 (allFrames [⟨16384, 16384 + 5 * 4096, true⟩]) 4096 4096
      = (.ok ⟨[(4096, 4096)]⟩,
          (init_heap 0 mem0
            (allFrames [⟨16384, 16384 + 5 * 4096, true⟩]) 4096 4096).2.1,
          (init_heap 0 mem0
            (allFrames [⟨16384, 16384 + 5 * 4096, true⟩]) 4096 4096).2.2) ∧
    kernel_main 0 mem0 [⟨16384, 16384 + 5 * 4096, true⟩] 4096 4096
      = ([KernelEvent.helloWorld, KernelEvent.heapValueLine,
          KernelEvent.vecLine, KernelEvent.rcCountIs 2,
          KernelEvent.rcCountIs 1, KernelEvent.itDidNotCrash], hlt_loop) :=
  by
  have h1 : (init_heap 0 mem0
      (allFrames [⟨16384, 16384 + 5 * 4096, true⟩]) 4096 4096).1
      = Except.ok (⟨[(4096, 4096)]⟩ : HeapState) := rfl
  have h2 : init_heap 0 mem0
      (allFrames [⟨16384, 16384 + 5 * 4096, true⟩]) 4096 4096
      = (Except.ok (⟨[(4096, 4096)]⟩ : HeapState),
          (init_heap 0 mem0
            (allFrames [⟨16384, 16384 + 5 * 4096, true⟩]) 4096 4096).2.1,
          (init_heap 0 mem0
            (allFrames [⟨16384, 16384 + 5 * 4096, true⟩]) 4096 4096).2.2) := by
    rw [← h1]
  exact ⟨h2,
    (kernel_never_returns 0 mem0 [⟨16384, 16384 + 5 * 4096, true⟩] 4096 4096).2
      ⟨[(4096, 4096)]⟩ _ _ h2⟩
end BigIron
